import Mathlib

/-!
# fetch-feeds.js : a shallow embedding

The script `fetch-feeds.js` fetches RSS/Atom feeds, normalises the items,
classifies, sorts, deduplicates and truncates them, and renders a Markdown page.

Modelling conventions.

* A JavaScript string is the list of its UTF-16 code units (`JSString`).  Lengths,
  `substring`, and the non-unicode regular expressions of the script all count code
  units.  Real code units are below 65536; no theorem below needs that bound.
* Builtins whose behaviour is not fixed by the script (`toLowerCase`, the `Date`
  constructor, `toLocaleDateString`, string conversion of objects,
  `Array.prototype.sort`) are taken as parameters, with the properties that the
  language standard gives them.
* A `Date` is `Option Int`: `some t` is the time value in milliseconds, `none` is
  the Invalid Date (time value `NaN`).
* Code that can throw returns an `Option`: `none` stands for the exception.
-/

namespace FetchFeeds

/-! ## Strings -/

/-- A JavaScript string: its sequence of UTF-16 code units. -/
abbrev JSString := List Nat

/-- UTF-16 encoding of one Unicode scalar value. -/
def utf16Char (c : Char) : List Nat :=
  if c.toNat < 65536 then [c.toNat]
  else [55296 + (c.toNat - 65536) / 1024, 56320 + (c.toNat - 65536) % 1024]

/-- The JavaScript string written as the literal `s`. -/
def js (s : String) : JSString := s.data.flatMap utf16Char

/-- Code unit of `<`. -/
def ltSign : Nat := 60

/-- Code unit of `>`. -/
def gtSign : Nat := 62

/-- Code unit of the space character. -/
def space : Nat := 32

/-- The class `\s` of a non-unicode regular expression, which is also the set of
code units removed by `String.prototype.trim`: WhiteSpace and LineTerminator. -/
def isSpace (c : Nat) : Bool :=
  c == 9 || c == 10 || c == 11 || c == 12 || c == 13 || c == 32 || c == 160 ||
  c == 5760 || (8192 ≤ c && c ≤ 8202) || c == 8232 || c == 8233 || c == 8239 ||
  c == 8287 || c == 12288 || c == 65279

/-! ## stripHtml -/

/-- One attempt to match `<[^>]+>` when the `<` has just been read: `rest` is what
follows the `<`.  The greedy class `[^>]+` takes the longest run of code units other
than `>`; the match succeeds when that run is non-empty and is followed by `>`.
Returns what follows the match. -/
def matchTag (rest : JSString) : Option JSString :=
  match rest.span (fun c => c != gtSign) with
  | ([], _) => none
  | (_ :: _, []) => none
  | (_ :: _, _ :: after) => some after

/-- The scan of `str.replace(/<[^>]+>/g, '')` with `fuel` steps: at each position
either a match starts there and the scan resumes after it, or the code unit is
copied and the scan moves one position on. -/
def stripTagsFuel : Nat → JSString → JSString
  | 0, _ => []
  | _ + 1, [] => []
  | fuel + 1, c :: rest =>
    if c = ltSign then
      match matchTag rest with
      | some after => stripTagsFuel fuel after
      | none => c :: stripTagsFuel fuel rest
    else c :: stripTagsFuel fuel rest

/-- The value of `str.replace(/<[^>]+>/g, '')`.  Each step consumes at least one code
unit, so `str.length` steps are enough (see `stripTags_cons`). -/
def stripTags (str : JSString) : JSString := stripTagsFuel str.length str

/-- The value of `str.replace(/\s+/g, ' ')`: every maximal run of whitespace becomes
one space.  A whitespace code unit followed by another one is dropped, the last one
of a run is replaced by a space. -/
def collapseSpaces : JSString → JSString
  | [] => []
  | c :: rest =>
    if isSpace c then
      match rest with
      | [] => [space]
      | d :: _ => if isSpace d then collapseSpaces rest else space :: collapseSpaces rest
    else c :: collapseSpaces rest

/-- The value of `str.trim()`. -/
def trim (str : JSString) : JSString :=
  ((str.dropWhile isSpace).reverse.dropWhile isSpace).reverse

/-- The value of `str.substring(0, n)` for a number `n ≥ 0`. -/
def substring0 (n : Nat) (str : JSString) : JSString := str.take n

/-- The text before truncation: tags removed, whitespace collapsed, trimmed. -/
def cleaned (str : JSString) : JSString := trim (collapseSpaces (stripTags str))

/-- Source function `stripHtml`:
`str.replace(/<[^>]+>/g, '').replace(/\s+/g, ' ').trim().substring(0, 200)`. -/
def stripHtml (str : JSString) : JSString := substring0 200 (cleaned str)

/-- Whether the regular expression `<[^>]+>` matches somewhere in `str`: at some `<`
of `str` a match starts. -/
def hasTag : JSString → Bool
  | [] => false
  | c :: rest => (c == ltSign && (matchTag rest).isSome) || hasTag rest

/-- Whether `str` is whitespace-normal: every whitespace code unit is a space that is
not followed by another whitespace code unit. -/
def isCollapsed : JSString → Bool
  | [] => true
  | c :: rest =>
    (!isSpace c || (c == space && !(rest.head?.any isSpace))) && isCollapsed rest

/-! ## Values of the tree built by `xml2js` -/

mutual
/-- A JavaScript value as it occurs in the result of `parseString` with
`explicitArray: false`: text, an array of nodes, or an object with named children
(`_` is the text of a node that also has attributes or children, `$` its attributes).
`func` is a builtin method read off a primitive string (`"text".link`). -/
inductive JSValue where
  | undefined
  | str (s : JSString)
  | arr (items : JSList)
  | obj (fields : JSFields)
  | func
  deriving DecidableEq
/-- The elements of an array. -/
inductive JSList where
  | nil
  | cons (head : JSValue) (tail : JSList)
  deriving DecidableEq
/-- The own properties of an object, in insertion order. -/
inductive JSFields where
  | nil
  | cons (name : String) (value : JSValue) (tail : JSFields)
  deriving DecidableEq
end

/-- The elements of an array as a list. -/
def JSList.toList : JSList → List JSValue
  | .nil => []
  | .cons v rest => v :: rest.toList

/-- The array with the given elements. -/
def JSList.ofList : List JSValue → JSList
  | [] => .nil
  | v :: rest => .cons v (JSList.ofList rest)

/-- The object with the given properties. -/
def JSFields.ofList : List (String × JSValue) → JSFields
  | [] => .nil
  | (n, v) :: rest => .cons n v (JSFields.ofList rest)

/-- The value of the own property `name`, `undefined` when there is none. -/
def JSFields.lookup (name : String) : JSFields → JSValue
  | .nil => .undefined
  | .cons n v rest => if n = name then v else rest.lookup name

/-- A `Date`: `some t` has time value `t` (milliseconds), `none` is the Invalid Date. -/
abbrev JSDate := Option Int

/-- ToBoolean: `undefined` and the empty string are falsy, everything else that
occurs here is truthy. -/
def truthy : JSValue → Bool
  | .undefined => false
  | .str s => !s.isEmpty
  | _ => true

/-- The value of `a || b`. -/
def jsOr (a b : JSValue) : JSValue := if truthy a then a else b

/-- The value of `v.name` for a `v` that is neither `undefined` nor `null`, for the
property names the script reads (`rss`, `channel`, `item`, `feed`, `entry`, `title`,
`link`, `description`, `pubDate`, `summary`, `content`, `published`, `updated`, `_`,
`$`, `href`).  Of these only `link` exists on a prototype: `String.prototype.link`. -/
def prop (v : JSValue) (name : String) : JSValue :=
  match v with
  | .obj fields => fields.lookup name
  | .str _ => if name = "link" then .func else .undefined
  | _ => .undefined

/-- The value of `v.name`; reading a property of `undefined` throws a TypeError. -/
def get (v : JSValue) (name : String) : Option JSValue :=
  match v with
  | .undefined => none
  | _ => some (prop v name)

/-- The value of `v?.name`. -/
def optGet (v : JSValue) (name : String) : JSValue :=
  match v with
  | .undefined => .undefined
  | _ => prop v name

/-- Whether `typeof v === 'object'`. -/
def isObject : JSValue → Bool
  | .obj _ => true
  | .arr _ => true
  | _ => false

/-- Whether `typeof v === 'string'`. -/
def isStr : JSValue → Bool
  | .str _ => true
  | _ => false

/-- The value of `Array.isArray(raw) ? raw : [raw]`. -/
def asArray (raw : JSValue) : List JSValue :=
  match raw with
  | .arr items => items.toList
  | v => [v]

/-- The value of `stripHtml(v)` for an arbitrary argument: a value that is not a
string has no method `replace`, and the call throws a TypeError. -/
def stripHtmlValue (v : JSValue) : Option JSString :=
  match v with
  | .str s => some (stripHtml s)
  | _ => none

/-! ## parseRSS -/

/-- The normalised item built by `parseRSS`. -/
structure ParsedItem where
  title : JSValue
  link : JSValue
  description : JSString
  date : JSDate
  deriving DecidableEq

/-- The RSS 2.0 mapping of one `item` node (lines 82-87).  `newDate` is the `Date`
constructor applied to a value, `now` the clock reading of `new Date()`. -/
def rssItem (newDate : JSValue → JSDate) (now : Int) (i : JSValue) : Option ParsedItem := do
  let title ← get i "title"
  let link ← get i "link"
  let description ← get i "description"
  let text ← stripHtmlValue (jsOr description (.str []))
  let pubDate ← get i "pubDate"
  pure { title := jsOr title (.str [])
         link := jsOr link (.str [])
         description := text
         date := if truthy pubDate then newDate pubDate else some now }

/-- The value of `typeof i.title === 'object' ? i.title._ || i.title.$ || '' :
i.title || ''`. -/
def atomTitle (t : JSValue) : JSValue :=
  if isObject t then jsOr (jsOr (prop t "_") (prop t "$")) (.str [])
  else jsOr t (.str [])

/-- The value of `i.link?.$ ? i.link.$.href : (typeof i.link === 'string' ? i.link :
'')`. -/
def atomLink (l : JSValue) : JSValue :=
  if truthy (optGet l "$") then prop (prop l "$") "href"
  else if isStr l then l else .str []

/-- The Atom mapping of one `entry` node (lines 93-98). -/
def atomItem (newDate : JSValue → JSDate) (now : Int) (i : JSValue) : Option ParsedItem := do
  let title ← get i "title"
  let link ← get i "link"
  let summary ← get i "summary"
  let content ← get i "content"
  let text ← stripHtmlValue
    (jsOr (jsOr (jsOr (jsOr (optGet summary "_") summary) (optGet content "_")) content)
      (.str []))
  let published ← get i "published"
  let updated ← get i "updated"
  pure { title := atomTitle title
         link := atomLink link
         description := text
         date := if truthy published then newDate published
                 else if truthy updated then newDate updated else some now }

/-- The value of `items.map(f)` for a callback that may throw. -/
def mapItems (f : JSValue → Option ParsedItem) : List JSValue → Option (List ParsedItem)
  | [] => some []
  | i :: rest => do
    let item ← f i
    let items ← mapItems f rest
    pure (item :: items)

/-- Source function `parseRSS`, from the tree `result` that `parseString` hands to its
callback (lines 76-101); `none` when the callback throws.  A malformed document makes
`parseString` report an error instead, and no tree exists. -/
def parseRSS (newDate : JSValue → JSDate) (now : Int) (result : JSValue) :
    Option (List ParsedItem) :=
  if truthy (optGet (optGet (optGet result "rss") "channel") "item") then do
    let items ← mapItems (rssItem newDate now)
      (asArray (prop (prop (prop result "rss") "channel") "item"))
    pure (items.filter (fun i => truthy i.title))
  else if truthy (optGet (optGet result "feed") "entry") then do
    let items ← mapItems (atomItem newDate now)
      (asArray (prop (prop result "feed") "entry"))
    pure (items.filter (fun i => truthy i.title))
  else some []

/-- Whether `v` is what `xml2js` yields for a text-only element that may be absent: a
string, or `undefined`. -/
def isText : JSValue → Bool
  | .str _ => true
  | .undefined => true
  | _ => false

/-- The string held by a text element, the empty string when it is absent. -/
def textOf : JSValue → JSString
  | .str s => s
  | _ => []

/-- Whether `node` is the tree of an RSS 2.0 `item` element: an object whose `title`,
`link` and `description`, which RSS 2.0 defines as text-only elements without
attributes, are strings or absent; or the string of an `item` that has no child element
at all. -/
def isRssItem (node : JSValue) : Bool :=
  match node with
  | .obj _ =>
    isText (prop node "title") && isText (prop node "link") &&
      isText (prop node "description")
  | .str _ => true
  | _ => false

/-- Whether the element has a non-empty `title`. -/
def hasTitle (node : JSValue) : Bool := truthy (prop node "title")

/-- The value that `xml2js` stores, with `explicitArray: false`, for the child elements
of one name: nothing when there is none, the node itself when there is one, an array
when there are several. -/
def itemsValue (nodes : List JSValue) : JSValue :=
  match nodes with
  | [] => .undefined
  | [node] => node
  | _ => .arr (JSList.ofList nodes)

/-- The record that the RSS 2.0 mapping builds from an `item` node (lines 82-87), for a
node whose `description` is text. -/
def rssRecord (newDate : JSValue → JSDate) (now : Int) (node : JSValue) : ParsedItem :=
  { title := jsOr (prop node "title") (.str [])
    link := jsOr (prop node "link") (.str [])
    description := stripHtml (textOf (jsOr (prop node "description") (.str [])))
    date := if truthy (prop node "pubDate") then newDate (prop node "pubDate") else some now }

/-! ## guessType -/

/-- The value of `text.includes(kw)`: `kw` occurs in `text` at some position. -/
def includes (text kw : JSString) : Bool := text.tails.any (fun t => kw.isPrefixOf t)

/-- Source function `guessType` for string arguments.  `lower` is
`String.prototype.toLowerCase`. -/
def guessType (lower : JSString → JSString) (title desc : JSString) : JSString :=
  let text := lower (title ++ js " " ++ desc)
  if includes text (js "consultation") || includes text (js "consultatie") then
    js "📋 Consultation"
  else if includes text (js "warning") || includes text (js "waarschuwing") then
    js "🔔 Warning"
  else if includes text (js "enforcement") || includes text (js "boete") ||
      includes text (js "fine") then
    js "⚖️ Enforcement"
  else if includes text (js "guideline") || includes text (js "guidance") ||
      includes text (js "leidraad") then
    js "📖 Guidance"
  else if includes text (js "report") || includes text (js "publication") ||
      includes text (js "rapport") then
    js "📊 Publication"
  else if includes text (js "speech") || includes text (js "toespraak") then
    js "🎤 Speech"
  else js "📰 News"

/-- The classifier as the specification words it: an ordered table of rules, each a
keyword set and a category; the first rule with a keyword in the text wins. -/
def rules : List (List JSString × JSString) :=
  [ ([js "consultation", js "consultatie"], js "📋 Consultation"),
    ([js "warning", js "waarschuwing"], js "🔔 Warning"),
    ([js "enforcement", js "boete", js "fine"], js "⚖️ Enforcement"),
    ([js "guideline", js "guidance", js "leidraad"], js "📖 Guidance"),
    ([js "report", js "publication", js "rapport"], js "📊 Publication"),
    ([js "speech", js "toespraak"], js "🎤 Speech") ]

/-- First match in a rule table over an already lowercased text, with a default. -/
def firstMatch (table : List (List JSString × JSString)) (dflt : JSString)
    (text : JSString) : JSString :=
  match table.find? (fun r => r.1.any (includes text)) with
  | some r => r.2
  | none => dflt

/-- The fifteen keywords of `guessType`, in the order in which they are tested. -/
def keywords : List JSString :=
  [js "consultation", js "consultatie", js "warning", js "waarschuwing", js "enforcement",
    js "boete", js "fine", js "guideline", js "guidance", js "leidraad", js "report",
    js "publication", js "rapport", js "speech", js "toespraak"]

/-- The seven category labels that `guessType` can return. -/
def categoryLabels : List JSString :=
  [js "📋 Consultation", js "🔔 Warning", js "⚖️ Enforcement", js "📖 Guidance",
    js "📊 Publication", js "🎤 Speech", js "📰 News"]

/-- Lowercase of one Basic Latin code unit. -/
def asciiLower (c : Nat) : Nat := if 65 ≤ c ∧ c ≤ 90 then c + 32 else c

/-- What the claims use of `toLowerCase`: a run `w` of code units is lowercased in
place, Basic Latin letters to their lowercase, whatever surrounds it.  The builtin has
this property for every run of Basic Latin letters (their case mapping is
context-free). -/
def LowersAscii (lower : JSString → JSString) : Prop :=
  ∀ a w b : JSString, (∀ c ∈ w, (65 ≤ c ∧ c ≤ 90) ∨ (97 ≤ c ∧ c ≤ 122)) →
    ∃ a2 b2, lower (a ++ w ++ b) = a2 ++ w.map asciiLower ++ b2

/-! ## main : collecting, sorting, deduplicating, truncating -/

/-- A record of the constant `FEEDS`; `type` is `none` when the property is absent. -/
structure FeedSource where
  source : JSString
  label : JSString
  url : JSString
  website : JSString
  type : Option JSString
  deriving DecidableEq

/-- The constant `FEEDS` (lines 18-50). -/
def FEEDS : List FeedSource :=
  [ { source := js "AFM", label := js "🟢 AFM",
      url := js "https://www.afm.nl/nl-nl/rss-feed/nieuws-professionals",
      website := js "https://www.afm.nl/nl-nl/sector/actueel", type := none },
    { source := js "AFM", label := js "🟢 AFM",
      url := js "https://www.afm.nl/nl-nl/rss-feed/waarschuwingen-afm",
      website := js "https://www.afm.nl/nl-nl/consumenten/waarschuwingen",
      type := some (js "Warning") },
    { source := js "DNB", label := js "🔵 DNB",
      url := js "https://www.dnb.nl/en/rss/",
      website := js "https://www.dnb.nl/algemeen-nieuws/", type := none },
    { source := js "EBA", label := js "🟤 EBA",
      url := js "https://www.eba.europa.eu/news-press/news/rss.xml",
      website := js "https://www.eba.europa.eu/news-press/news", type := none },
    { source := js "ESMA", label := js "🟣 ESMA",
      url := js "https://www.esma.europa.eu/press-news/esma-news/feed",
      website := js "https://www.esma.europa.eu/press-news/esma-news", type := none } ]

/-- An item of `allItems`: a parsed item tagged with its feed and type. -/
structure NewsItem where
  title : JSValue
  link : JSValue
  description : JSString
  date : JSDate
  source : JSString
  label : JSString
  type : JSString
  deriving DecidableEq

/-- The string conversion applied by `title + ' '`: a string is itself, any other value
is converted by `objToString` (the builtin ToPrimitive / ToString). -/
def toJSString (objToString : JSValue → JSString) (v : JSValue) : JSString :=
  match v with
  | .str s => s
  | w => objToString w

/-- The value of `feed.type || guessType(item.title, item.description)`: an absent
or empty `type` is falsy. -/
def resolveType (lower : JSString → JSString) (objToString : JSValue → JSString)
    (feed : FeedSource) (item : ParsedItem) : JSString :=
  match feed.type with
  | some t =>
    if t.isEmpty then guessType lower (toJSString objToString item.title) item.description
    else t
  | none => guessType lower (toJSString objToString item.title) item.description

/-- The object `{ ...item, source, label, type }` (lines 141-146). -/
def tagItem (lower : JSString → JSString) (objToString : JSValue → JSString)
    (feed : FeedSource) (item : ParsedItem) : NewsItem :=
  { title := item.title
    link := item.link
    description := item.description
    date := item.date
    source := feed.source
    label := feed.label
    type := resolveType lower objToString feed item }

/-- The loop over the feeds (lines 132-150).  Each feed comes with the outcome of
`fetchUrl` and `parseRSS`: `some items`, or `none` when either of them failed and the
`catch` block ran.  The `catch` block only logs, and the loop goes on with the next
feed. -/
def collect (lower : JSString → JSString) (objToString : JSValue → JSString) :
    List (FeedSource × Option (List ParsedItem)) → List NewsItem
  | [] => []
  | (feed, some items) :: rest =>
    items.map (tagItem lower objToString feed) ++ collect lower objToString rest
  | (_, none) :: rest => collect lower objToString rest

/-- What one feed adds to `allItems`, as the specification words it: the tagged items
of a feed that succeeded, nothing for a feed that failed. -/
def contribution (lower : JSString → JSString) (objToString : JSValue → JSString)
    (outcome : FeedSource × Option (List ParsedItem)) : List NewsItem :=
  match outcome.2 with
  | some items => items.map (tagItem lower objToString outcome.1)
  | none => []

/-- The comparator `(a, b) => new Date(b.date) - new Date(a.date)`: the difference of
the time values, `none` (NaN) when one of the dates is invalid. -/
def compareDates (a b : NewsItem) : Option Int :=
  match b.date, a.date with
  | some tb, some ta => some (tb - ta)
  | _, _ => none

/-- SortCompare of `Array.prototype.sort`: a comparator result NaN counts as `+0`. -/
def sortCompare (a b : NewsItem) : Int := (compareDates a b).getD 0

/-- Insertion of `x` in front of the first element that it does not have to follow. -/
def insertSorted {α : Type} (cmp : α → α → Int) (x : α) : List α → List α
  | [] => [x]
  | y :: ys => if cmp x y ≤ 0 then x :: y :: ys else y :: insertSorted cmp x ys

/-- The stable insertion sort.  The language requires `Array.prototype.sort(cmp)` to be
stable, so for a consistent comparator every conforming sort returns this list; for an
inconsistent one the order is implementation-defined (see `ConformingSort`) and this
list is one admissible outcome. -/
def stableSort {α : Type} (cmp : α → α → Int) : List α → List α
  | [] => []
  | x :: xs => insertSorted cmp x (stableSort cmp xs)

/-- The key `item.title.toLowerCase().substring(0, 60)`; a title that is not a string
has no method `toLowerCase`, and the call throws a TypeError. -/
def titleKey (lower : JSString → JSString) (title : JSValue) : Option JSString :=
  match title with
  | .str s => some (substring0 60 (lower s))
  | _ => none

/-- The `filter` with the set `seen` (lines 156-162): an item is kept when its key is
not yet in `seen`, and then its key is added. -/
def dedupeFrom (lower : JSString → JSString) :
    List JSString → List NewsItem → Option (List NewsItem)
  | _, [] => some []
  | seen, item :: rest => do
    let key ← titleKey lower item.title
    if key ∈ seen then dedupeFrom lower seen rest
    else do
      let kept ← dedupeFrom lower (key :: seen) rest
      pure (item :: kept)

/-- What the language standard guarantees of `allItems.sort(cmp)` with the comparator of
line 153.  The result is always a rearrangement of the array.  When every date is valid
the comparator is a consistent comparison function and the result is the stable sorted
list; when a date is invalid the comparator returns NaN, it is not a consistent
comparison function, and the order is implementation-defined. -/
def ConformingSort (sort : List NewsItem → List NewsItem) : Prop :=
  ∀ l, (sort l).Perm l ∧
    ((∀ i ∈ l, i.date.isSome = true) → sort l = stableSort sortCompare l)

/-- The binary search of the engine's binary insertion sort: the position in `run`,
between `left` and `right`, at which `pivot` is inserted.  The search goes left when
`cmp pivot run[mid] < 0` and right otherwise. -/
def searchPos {α : Type} (cmp : α → α → Int) (pivot : α) (run : List α) :
    Nat → Nat → Nat → Nat
  | 0, left, _ => left
  | fuel + 1, left, right =>
    if left < right then
      match run[left + (right - left) / 2]? with
      | some e =>
        if cmp pivot e < 0 then searchPos cmp pivot run fuel left (left + (right - left) / 2)
        else searchPos cmp pivot run fuel (left + (right - left) / 2 + 1) right
      | none => left
    else left

/-- One step of the binary insertion sort: `pivot` is put at the position found in the
already ordered `run`. -/
def binaryInsert {α : Type} (cmp : α → α → Int) (run : List α) (pivot : α) : List α :=
  (run.take (searchPos cmp pivot run run.length 0 run.length)) ++
    pivot :: run.drop (searchPos cmp pivot run run.length 0 run.length)

/-- The run detection of the engine: how many elements after `prev` continue the run
that `prev` ends, a strictly descending one or a non-descending one. -/
def runLength {α : Type} (cmp : α → α → Int) (descending : Bool) : α → List α → Nat
  | _, [] => 0
  | prev, cur :: rest =>
    if descending then
      if cmp cur prev < 0 then 1 + runLength cmp descending cur rest else 0
    else
      if cmp cur prev < 0 then 0 else 1 + runLength cmp descending cur rest

/-- The sort that V8, the engine of Node.js, performs on an array of fewer than 64
elements (TimSort with a single run): the initial run is detected, reversed when it is
strictly descending, and the remaining elements are put in place by binary insertion.
Used to evaluate the script where the language leaves the order to the engine. -/
def engineSort {α : Type} (cmp : α → α → Int) : List α → List α
  | [] => []
  | [x] => [x]
  | x :: y :: rest =>
    let descending := decide (cmp y x < 0)
    let n := 2 + runLength cmp descending y rest
    let run := if descending then ((x :: y :: rest).take n).reverse
               else (x :: y :: rest).take n
    ((x :: y :: rest).drop n).foldl (binaryInsert cmp) run

/-- The time value of a valid date (0 for the Invalid Date): the sort key of an item
among items with valid dates. -/
def dateKey (i : NewsItem) : Int := i.date.getD 0

/-- Lines 152-165 of `main`: sort by date, newest first; remove duplicates; keep the
first 30.  `sort` is `Array.prototype.sort` with the comparator of line 153. -/
def aggregate (sort : List NewsItem → List NewsItem) (lower : JSString → JSString)
    (items : List NewsItem) : Option (List NewsItem) := do
  let unique ← dedupeFrom lower [] (sort items)
  pure (unique.take 30)

/-- JavaScript `a < b` on two dates: false when one of them is invalid. -/
def earlier (a b : JSDate) : Bool :=
  match a, b with
  | some ta, some tb => decide (ta < tb)
  | _, _ => false

/-- The specification of the deduplication: the items of `l` whose key occurs on no
earlier item of `l`, in the order of `l`. -/
def firstOccurrences (lower : JSString → JSString) (l : List NewsItem) : List NewsItem :=
  (l.enum.filter (fun p =>
    (l.take p.1).all (fun earlierItem =>
      decide (titleKey lower earlierItem.title ≠ titleKey lower p.2.title)))).map Prod.snd

/-- The deduplication filter over an arbitrary key function, without the exception
path: used to reason about `dedupeFrom`. -/
def dedupeBy {α κ : Type} [DecidableEq κ] (k : α → κ) : List κ → List α → List α
  | _, [] => []
  | seen, x :: xs =>
    if k x ∈ seen then dedupeBy k seen xs else x :: dedupeBy k (k x :: seen) xs

/-! ## formatDate and the Markdown page -/

/-- Source function formatDate (lines 110-114).  `toDate` is `new Date(date)`, `none`
being the Invalid Date, whose `getTime()` is NaN; `localeDate` is the builtin
`toLocaleDateString('en-GB', { day: 'numeric', month: 'short', year: 'numeric' })` of a
valid date, whose text depends on the locale data and the time zone of the process. -/
def formatDate {α : Type} (toDate : α → JSDate) (localeDate : Int → JSString) (date : α) :
    JSString :=
  match toDate date with
  | none => js "Unknown date"
  | some t => localeDate t

/-- The line feed, the code unit of `\n`. -/
def lineFeed : Nat := 10

/-- The template literal that starts `md` (lines 174-199), one piece for each of its
lines; `updated` is the text of the time of the run. -/
def pageHead (updated : JSString) : JSString :=
  js "---\n" ++
  js "description: >-\n" ++
  js "  Automatisch bijgewerkte regulatory news feed van AFM, DNB, EBA en ESMA.\n" ++
  js "  Laatste update: " ++ updated ++ js "\n" ++
  js "---\n" ++
  js "\n" ++
  js "# 📰 Regulatory News Feed\n" ++
  js "\n" ++
  js "> **Laatste update:** " ++ updated ++ js "\n" ++
  js "> \n" ++
  js "> Deze pagina wordt automatisch bijgewerkt via RSS feeds van de financiële toezichthouders.\n" ++
  js "\n" ++
  js "## Directe links\n" ++
  js "\n" ++
  js "| Toezichthouder | Nieuwspagina |\n" ++
  js "|---|---|\n" ++
  js "| 🟢 **AFM** | [afm.nl/sector/actueel](https://www.afm.nl/nl-nl/sector/actueel) |\n" ++
  js "| 🔵 **DNB** | [dnb.nl/algemeen-nieuws](https://www.dnb.nl/algemeen-nieuws/) |\n" ++
  js "| 🟤 **EBA** | [eba.europa.eu/news-press](https://www.eba.europa.eu/news-press/news) |\n" ++
  js "| 🟣 **ESMA** | [esma.europa.eu/esma-news](https://www.esma.europa.eu/press-news/esma-news) |\n" ++
  js "\n" ++
  js "---\n" ++
  js "\n" ++
  js "## Laatste nieuws\n" ++
  js "\n"

/-- The body of the loop over the items (lines 201-211): what one item appends to `md`.
A title or a link that is not a string is converted to one by the template literal;
`item.date` is a `Date`, and `new Date` of a `Date` has the same time value. -/
def appendItem (objToString : JSValue → JSString) (localeDate : Int → JSString)
    (md : JSString) (item : NewsItem) : JSString :=
  let md1 := md ++ (js "### " ++ item.label ++ js " " ++ toJSString objToString item.title ++
    js "\n\n")
  let md2 := md1 ++ (js "**" ++ formatDate (fun d => d) localeDate item.date ++ js "** · " ++
    item.type ++ js "\n\n")
  let md3 := if item.description ≠ [] then md2 ++ (item.description ++ js "\n\n") else md2
  let md4 := if truthy item.link then
      md3 ++ (js "🔗 [Lees meer →](" ++ toJSString objToString item.link ++ js ")\n\n")
    else md3
  md4 ++ js "---\n\n"

/-- The footer appended after the loop (line 213). -/
def pageFoot : JSString :=
  js "\n*Deze pagina wordt automatisch gegenereerd. Bronnen: AFM, DNB, EBA, ESMA RSS feeds.*\n"

/-- The Markdown text `md` that `main` writes (lines 174-213). -/
def render (objToString : JSValue → JSString) (localeDate : Int → JSString)
    (updated : JSString) (items : List NewsItem) : JSString :=
  items.foldl (appendItem objToString localeDate) (pageHead updated) ++ pageFoot

/-- The lines of a text: the pieces between its line feeds. -/
def splitLines : JSString → List JSString
  | [] => [[]]
  | c :: rest =>
    if c = lineFeed then [] :: splitLines rest
    else
      match splitLines rest with
      | [] => [[c]]
      | l :: ls => (c :: l) :: ls

/-- The text of the given lines, each of them ended by a line feed. -/
def unlines (ls : List JSString) : JSString := ls.flatMap (fun l => l ++ [lineFeed])

/-- Whether a line starts with `### `. -/
def isHeadingLine (l : JSString) : Bool := (js "### ").isPrefixOf l

/-- The number of lines of a text that start with `### `. -/
def headingCount (md : JSString) : Nat := ((splitLines md).filter isHeadingLine).length

/-- The number of places in a list of lines where a front-matter block opens: a line
`---` directly followed by the line `description: >-`. -/
def frontMatterCount : List JSString → Nat
  | a :: b :: rest =>
    (if a = js "---" ∧ b = js "description: >-" then 1 else 0) + frontMatterCount (b :: rest)
  | _ => 0

/-- The front-matter block of the page. -/
def frontMatter (updated : JSString) : List JSString :=
  [ js "---",
    js "description: >-",
    js "  Automatisch bijgewerkte regulatory news feed van AFM, DNB, EBA en ESMA.",
    js "  Laatste update: " ++ updated,
    js "---" ]

/-- The lines of `pageHead`. -/
def headLines (updated : JSString) : List JSString :=
  [ js "---",
    js "description: >-",
    js "  Automatisch bijgewerkte regulatory news feed van AFM, DNB, EBA en ESMA.",
    js "  Laatste update: " ++ updated,
    js "---",
    [],
    js "# 📰 Regulatory News Feed",
    [],
    js "> **Laatste update:** " ++ updated,
    js "> ",
    js "> Deze pagina wordt automatisch bijgewerkt via RSS feeds van de financiële toezichthouders.",
    [],
    js "## Directe links",
    [],
    js "| Toezichthouder | Nieuwspagina |",
    js "|---|---|",
    js "| 🟢 **AFM** | [afm.nl/sector/actueel](https://www.afm.nl/nl-nl/sector/actueel) |",
    js "| 🔵 **DNB** | [dnb.nl/algemeen-nieuws](https://www.dnb.nl/algemeen-nieuws/) |",
    js "| 🟤 **EBA** | [eba.europa.eu/news-press](https://www.eba.europa.eu/news-press/news) |",
    js "| 🟣 **ESMA** | [esma.europa.eu/esma-news](https://www.esma.europa.eu/press-news/esma-news) |",
    [],
    js "---",
    [],
    js "## Laatste nieuws",
    [] ]

/-- The heading line of an item. -/
def headingLine (objToString : JSValue → JSString) (item : NewsItem) : JSString :=
  js "### " ++ item.label ++ js " " ++ toJSString objToString item.title

/-- The date and type line of an item. -/
def dateLine (localeDate : Int → JSString) (item : NewsItem) : JSString :=
  js "**" ++ formatDate (fun d => d) localeDate item.date ++ js "** · " ++ item.type

/-- The description and link lines of an item, each followed by an empty line. -/
def middleLines (objToString : JSValue → JSString) (item : NewsItem) : List JSString :=
  (if item.description ≠ [] then [item.description, []] else []) ++
  (if truthy item.link then
    [js "🔗 [Lees meer →](" ++ toJSString objToString item.link ++ js ")", []]
  else [])

/-- The lines of the block of one item. -/
def itemLines (objToString : JSValue → JSString) (localeDate : Int → JSString)
    (item : NewsItem) : List JSString :=
  [headingLine objToString item, [], dateLine localeDate item, []] ++
  middleLines objToString item ++ [js "---", []]

/-- The lines of `pageFoot`. -/
def footLines : List JSString :=
  [ [],
    js "*Deze pagina wordt automatisch gegenereerd. Bronnen: AFM, DNB, EBA, ESMA RSS feeds.*" ]

/-- An item none of whose texts holds a line feed. -/
def LineFree (objToString : JSValue → JSString) (item : NewsItem) : Prop :=
  lineFeed ∉ item.label ∧ lineFeed ∉ toJSString objToString item.title ∧
  lineFeed ∉ item.type ∧ lineFeed ∉ item.description ∧
  lineFeed ∉ toJSString objToString item.link

/-! ## Sample data -/

/-- A stand-in for `toLowerCase` on Basic Latin text, where the builtin maps code unit
by code unit. -/
def lowerAscii (s : JSString) : JSString := s.map asciiLower

/-- An item with the given title and date, the other fields fixed. -/
def sampleItem (title : String) (date : JSDate) : NewsItem :=
  { title := .str (js title), link := .str (js "https://example.org/"), description := [],
    date := date, source := js "DNB", label := js "🔵 DNB", type := js "📰 News" }

/-- Time value of 2024-01-01T00:00:00Z. -/
def jan1 : Int := 1704067200000

/-- Time value of 2024-02-01T00:00:00Z. -/
def feb1 : Int := 1706745600000

/-- Time value of 2024-03-01T00:00:00Z. -/
def mar1 : Int := 1709251200000

/-- Thirty-one items with pairwise distinct one-letter titles: one dated 2024-01-01,
twenty-nine with an Invalid Date, one dated 2024-03-01. -/
def thirtyOneItems : List NewsItem :=
  sampleItem "A" (some jan1) ::
    ((List.range 29).map (fun n => sampleItem (String.singleton (Char.ofNat (98 + n))) none) ++
      [sampleItem "0" (some mar1)])

/-- Seven items: two dated 2024-02-01 (`first`, then `second`), among items with an
Invalid Date, one dated 2024-01-01 and one dated 2024-03-01. -/
def sevenItems : List NewsItem :=
  [sampleItem "n1" none, sampleItem "n2" none, sampleItem "old" (some jan1),
    sampleItem "n3" none, sampleItem "first" (some feb1), sampleItem "new" (some mar1),
    sampleItem "second" (some feb1)]

/-- Forty-five items with pairwise distinct one-character titles and distinct valid
dates, the oldest first. -/
def fortyFiveItems : List NewsItem :=
  (List.range 45).map (fun n =>
    sampleItem (String.singleton (Char.ofNat (48 + n))) (some (jan1 + 86400000 * n)))

/-- A feed record whose `type` property is the empty string. -/
def emptyTypeFeed : FeedSource :=
  { source := js "DNB", label := js "🔵 DNB", url := js "https://www.dnb.nl/en/rss/",
    website := js "https://www.dnb.nl/algemeen-nieuws/", type := some [] }

/-- A parsed item with the given title and description. -/
def sampleParsed (title description : String) : ParsedItem :=
  { title := .str (js title), link := .str (js "https://example.org/"),
    description := js description, date := some jan1 }

/-- The tree of `<rss><channel><item><title type="html">Rates</title>
<link>https://example.org/</link></item></channel></rss>`: an element with an
attribute and text is the object of its text `_` and its attributes `$`. -/
def rssTitleWithAttribute : JSValue :=
  .obj (.cons "rss" (.obj (.cons "channel" (.obj (.cons "item"
    (.obj (.cons "title"
        (.obj (.cons "_" (.str (js "Rates"))
          (.cons "$" (.obj (.cons "type" (.str (js "html")) .nil)) .nil)))
      (.cons "link" (.str (js "https://example.org/")) .nil)))
    .nil)) .nil)) .nil)

/-- A stand-in for the `Date` constructor: one RFC 822 date string is parsed, every other
value gives the Invalid Date, as the builtin does for a text that is not a date. -/
def sampleNewDate (v : JSValue) : JSDate :=
  if v = .str (js "Mon, 01 Jan 2024 00:00:00 GMT") then some jan1 else none

/-- An RSS `item` node with the given title, link and publication date. -/
def rssNode (title link pubDate : String) : JSValue :=
  .obj (.cons "title" (.str (js title)) (.cons "link" (.str (js link))
    (.cons "description" (.str (js "<p>Text</p>"))
      (.cons "pubDate" (.str (js pubDate)) .nil))))

/-- The tree of an RSS 2.0 document with the given `item` nodes in its channel. -/
def rssDocument (nodes : List JSValue) : JSValue :=
  .obj (.cons "rss" (.obj (.cons "$" (.obj (.cons "version" (.str (js "2.0")) .nil))
    (.cons "channel" (.obj (.cons "title" (.str (js "News"))
      (.cons "item" (itemsValue nodes) .nil))) .nil))) .nil)

/-- The tree of an Atom feed with one entry that has two `link` elements:
`<feed><entry><title>Rates</title><link rel="alternate" href="https://example.org/a"/>
<link rel="related" href="https://example.org/b"/></entry></feed>`.  Two elements of
one name are stored as an array. -/
def atomTwoLinks : JSValue :=
  .obj (.cons "feed" (.obj (.cons "entry"
    (.obj (.cons "title" (.str (js "Rates"))
      (.cons "link" (.arr (.cons
          (.obj (.cons "$" (.obj (.cons "rel" (.str (js "alternate"))
            (.cons "href" (.str (js "https://example.org/a")) .nil))) .nil))
        (.cons
          (.obj (.cons "$" (.obj (.cons "rel" (.str (js "related"))
            (.cons "href" (.str (js "https://example.org/b")) .nil))) .nil))
        .nil))) .nil)))
    .nil)) .nil)

/-- A stand-in for `toLocaleDateString` with the options of `formatDate`, in UTC. -/
def sampleLocaleDate (t : Int) : JSString :=
  if t = jan1 then js "1 Jan 2024" else if t = feb1 then js "1 Feb 2024" else js "1 Mar 2024"

/-- An item of the page with the given title and description. -/
def pageItem (title description : String) : NewsItem :=
  { title := .str (js title), link := .str (js "https://example.org/"),
    description := js description, date := some jan1, source := js "DNB",
    label := js "🔵 DNB", type := js "📰 News" }

/-- The text of the time of a run. -/
def sampleUpdated : JSString := js "1 January 2024 at 09:00"


/-- Two items of a page, the second without a description. -/
def samplePage : List NewsItem := [pageItem "Rates" "Text", pageItem "Other" ""]

/-- Two items of a page, the description of the first starting with `### `. -/
def descriptionHeadingPage : List NewsItem :=
  [pageItem "Rates" "### Update", pageItem "Other" ""]
/-! ## Lemmas on stripHtml -/

theorem matchTag_eq_some_iff (rest after : JSString) :
    matchTag rest = some after ↔
      ∃ d body, d ≠ gtSign ∧ gtSign ∉ body ∧ rest = d :: (body ++ gtSign :: after) := by
  cases rest with
  | nil => simp [matchTag, List.span_eq_take_drop]
  | cons c r =>
    by_cases hc : c = gtSign
    · subst hc
      simp only [matchTag, List.span_eq_take_drop, List.takeWhile_cons, List.dropWhile_cons]
      simp only [bne_self_eq_false, Bool.false_eq_true, if_false]
      refine ⟨fun h => by simp at h, ?_⟩
      rintro ⟨d, body, hd, -, h⟩
      simp only [List.cons.injEq] at h
      exact absurd h.1.symm hd
    · constructor
      · intro h
        simp only [matchTag, List.span_eq_take_drop] at h
        have htw : (c :: r).takeWhile (fun c => c != gtSign) =
            c :: r.takeWhile (fun c => c != gtSign) := by simp [List.takeWhile_cons, hc]
        have hdw : (c :: r).dropWhile (fun c => c != gtSign) =
            r.dropWhile (fun c => c != gtSign) := by simp [List.dropWhile_cons, hc]
        rw [htw, hdw] at h
        cases hd : r.dropWhile (fun c => c != gtSign) with
        | nil => rw [hd] at h; simp at h
        | cons e after2 =>
          rw [hd] at h
          simp only [Option.some.injEq] at h
          subst h
          have he : e = gtSign := by
            have := List.head_dropWhile_not (fun c => c != gtSign) r (by rw [hd]; simp)
            simpa [hd] using this
          subst he
          refine ⟨c, r.takeWhile (fun c => c != gtSign), hc, ?_, ?_⟩
          · intro hmem
            have := List.mem_takeWhile_imp hmem
            simp at this
          · have := List.takeWhile_append_dropWhile (fun c => c != gtSign) r
            rw [hd] at this
            rw [this]
      · rintro ⟨d, body, hd, hbody, hrest⟩
        simp only [List.cons.injEq] at hrest
        obtain ⟨rfl, rfl⟩ := hrest
        have htw : (body ++ gtSign :: after).takeWhile (fun c => c != gtSign) = body := by
          rw [List.takeWhile_append_of_pos]
          · simp
          · intro x hx
            have : x ≠ gtSign := fun h => hbody (h ▸ hx)
            simpa using this
        have hdw : (body ++ gtSign :: after).dropWhile (fun c => c != gtSign) =
            gtSign :: after := by
          rw [List.dropWhile_append_of_pos]
          · simp
          · intro x hx
            have : x ≠ gtSign := fun h => hbody (h ▸ hx)
            simpa using this
        simp [matchTag, List.span_eq_take_drop, List.takeWhile_cons, List.dropWhile_cons, hc,
          htw, hdw]

theorem matchTag_length_lt {rest after : JSString} (h : matchTag rest = some after) :
    after.length < rest.length := by
  obtain ⟨d, body, -, -, rfl⟩ := (matchTag_eq_some_iff _ _).1 h
  simp only [List.length_cons, List.length_append]
  omega

theorem stripTagsFuel_congr : ∀ (n m : Nat) (l : JSString), l.length ≤ n → l.length ≤ m →
    stripTagsFuel n l = stripTagsFuel m l := by
  intro n
  induction n with
  | zero =>
    intro m l hn _
    have hl : l = [] := List.eq_nil_of_length_eq_zero (Nat.le_zero.1 hn)
    subst hl
    cases m <;> rfl
  | succ n ih =>
    intro m l hn hm
    cases l with
    | nil => cases m <;> rfl
    | cons c rest =>
      cases m with
      | zero => simp at hm
      | succ m =>
        simp only [List.length_cons, Nat.add_le_add_iff_right] at hn hm
        simp only [stripTagsFuel]
        split
        · cases hmt : matchTag rest with
          | none => simp only [ih m rest hn hm]
          | some after =>
            have hlt := matchTag_length_lt hmt
            simp only [ih m after (by omega) (by omega)]
        · rw [ih m rest hn hm]

theorem stripTags_nil : stripTags [] = [] := rfl

theorem stripTags_cons (c : Nat) (rest : JSString) :
    stripTags (c :: rest) =
      if c = ltSign then
        match matchTag rest with
        | some after => stripTags after
        | none => c :: stripTags rest
      else c :: stripTags rest := by
  simp only [stripTags, List.length_cons, stripTagsFuel]
  split
  · cases hmt : matchTag rest with
    | none => rfl
    | some after =>
      have hlt := matchTag_length_lt hmt
      exact stripTagsFuel_congr _ _ _ (by omega) (le_refl _)
  · rfl

theorem mem_stripTags {x : Nat} : ∀ (n : Nat) (l : JSString), l.length ≤ n →
    x ∈ stripTags l → x ∈ l := by
  intro n
  induction n with
  | zero =>
    intro l hn h
    have hl : l = [] := List.eq_nil_of_length_eq_zero (Nat.le_zero.1 hn)
    subst hl
    simp [stripTags_nil] at h
  | succ n ih =>
    intro l hn h
    cases l with
    | nil => simp [stripTags_nil] at h
    | cons c rest =>
      simp only [List.length_cons, Nat.add_le_add_iff_right] at hn
      rw [stripTags_cons] at h
      split at h
      · cases hmt : matchTag rest with
        | none =>
          rw [hmt] at h
          rcases List.mem_cons.1 h with h | h
          · exact h ▸ List.mem_cons_self _ _
          · exact List.mem_cons_of_mem _ (ih rest hn h)
        | some after =>
          rw [hmt] at h
          have hlt := matchTag_length_lt hmt
          have hx := ih after (by omega) h
          obtain ⟨d, body, -, -, rfl⟩ := (matchTag_eq_some_iff _ _).1 hmt
          simp only [List.mem_cons, List.mem_append]
          tauto
      · rcases List.mem_cons.1 h with h | h
        · exact h ▸ List.mem_cons_self _ _
        · exact List.mem_cons_of_mem _ (ih rest hn h)

theorem matchTag_isSome_iff (rest : JSString) :
    (matchTag rest).isSome = true ↔ ∃ d r, rest = d :: r ∧ d ≠ gtSign ∧ gtSign ∈ r := by
  constructor
  · intro h
    obtain ⟨after, hafter⟩ := Option.isSome_iff_exists.1 h
    obtain ⟨d, body, hd, -, rfl⟩ := (matchTag_eq_some_iff _ _).1 hafter
    exact ⟨d, _, rfl, hd, by simp⟩
  · rintro ⟨d, r, rfl, hd, hmem⟩
    have hne : r.dropWhile (fun c => c != gtSign) ≠ [] := by
      intro h
      have := List.dropWhile_eq_nil_iff.1 h gtSign hmem
      simp at this
    obtain ⟨e, after, hda⟩ := List.exists_cons_of_ne_nil hne
    have he : e = gtSign := by
      have := List.head_dropWhile_not (fun c => c != gtSign) r (by rw [hda]; simp)
      simpa [hda] using this
    subst he
    apply Option.isSome_iff_exists.2
    refine ⟨after, (matchTag_eq_some_iff _ _).2
      ⟨d, r.takeWhile (fun c => c != gtSign), hd, ?_, ?_⟩⟩
    · intro hm
      have := List.mem_takeWhile_imp hm
      simp at this
    · have := List.takeWhile_append_dropWhile (fun c => c != gtSign) r
      rw [hda] at this
      rw [this]

theorem matchTag_stripTags_isSome {rest : JSString}
    (h : (matchTag (stripTags rest)).isSome = true) : (matchTag rest).isSome = true := by
  obtain ⟨d, r, hdr, hd, hmem⟩ := (matchTag_isSome_iff _).1 h
  have hg : gtSign ∈ rest :=
    mem_stripTags rest.length rest (le_refl _) (by rw [hdr]; exact List.mem_cons_of_mem _ hmem)
  cases rest with
  | nil => simp at hg
  | cons e rest2 =>
    have he : e ≠ gtSign := by
      intro he
      subst he
      rw [stripTags_cons] at hdr
      simp only [gtSign, ltSign] at hdr
      simp only [show (62 : Nat) ≠ 60 by decide, if_false, List.cons.injEq] at hdr
      exact hd (by simp only [gtSign]; exact hdr.1.symm)
    refine (matchTag_isSome_iff _).2 ⟨e, rest2, rfl, he, ?_⟩
    rcases List.mem_cons.1 hg with h1 | h1
    · exact absurd h1.symm he
    · exact h1

theorem hasTag_stripTags_aux : ∀ (n : Nat) (l : JSString), l.length ≤ n →
    hasTag (stripTags l) = false := by
  intro n
  induction n with
  | zero =>
    intro l hn
    have hl : l = [] := List.eq_nil_of_length_eq_zero (Nat.le_zero.1 hn)
    subst hl
    rfl
  | succ n ih =>
    intro l hn
    cases l with
    | nil => rfl
    | cons c rest =>
      simp only [List.length_cons, Nat.add_le_add_iff_right] at hn
      rw [stripTags_cons]
      split
      · cases hmt : matchTag rest with
        | none =>
          simp only [hasTag, ih rest hn, Bool.or_false, Bool.and_eq_false_imp]
          intro _
          cases hs : (matchTag (stripTags rest)).isSome with
          | false => rfl
          | true =>
            have := matchTag_stripTags_isSome hs
            rw [hmt] at this
            simp at this
        | some after =>
          have hlt := matchTag_length_lt hmt
          exact ih after (by omega)
      · rename_i hc
        simp [hasTag, ih rest hn, hc]

/-- The output of the tag removal contains no match of `<[^>]+>`. -/
theorem hasTag_stripTags (l : JSString) : hasTag (stripTags l) = false :=
  hasTag_stripTags_aux l.length l (le_refl _)

/-- A string without a match is left unchanged by the tag removal. -/
theorem stripTags_of_hasTag_false : ∀ (l : JSString), hasTag l = false → stripTags l = l := by
  intro l
  induction l with
  | nil => intro _; rfl
  | cons c rest ih =>
    intro h
    simp only [hasTag, Bool.or_eq_false_iff, Bool.and_eq_false_imp, beq_iff_eq] at h
    rw [stripTags_cons]
    split
    · rename_i hc
      have := h.1 hc
      cases hmt : matchTag rest with
      | none => simp [ih h.2]
      | some after => rw [hmt] at this; simp at this
    · rw [ih h.2]

theorem mem_collapseSpaces {x : Nat} : ∀ (l : JSString),
    x ∈ collapseSpaces l → x ∈ l ∨ x = space := by
  intro l
  induction l with
  | nil => intro h; simp [collapseSpaces] at h
  | cons c rest ih =>
    intro h
    cases rest with
    | nil =>
      by_cases hc : isSpace c = true
      · simp [collapseSpaces, hc] at h
        exact Or.inr h
      · simp [collapseSpaces, hc] at h
        exact Or.inl (by simp [h])
    | cons d r =>
      by_cases hc : isSpace c = true
      · by_cases hd : isSpace d = true
        · simp only [collapseSpaces, hc, hd, if_true] at h ih
          rcases ih h with h1 | h1
          · exact Or.inl (List.mem_cons_of_mem _ h1)
          · exact Or.inr h1
        · simp only [collapseSpaces, hc, hd, if_true] at h ih
          rcases List.mem_cons.1 h with h1 | h1
          · exact Or.inr h1
          · simp only [Bool.false_eq_true, if_false] at ih
            rcases ih (by simpa using h1) with h2 | h2
            · exact Or.inl (List.mem_cons_of_mem _ h2)
            · exact Or.inr h2
      · simp only [collapseSpaces, hc, if_false] at h
        rcases List.mem_cons.1 h with h1 | h1
        · exact Or.inl (by simp [h1])
        · rcases ih h1 with h2 | h2
          · exact Or.inl (List.mem_cons_of_mem _ h2)
          · exact Or.inr h2

theorem collapseSpaces_cons_of_not_space {c : Nat} (rest : JSString) (hc : isSpace c = false) :
    collapseSpaces (c :: rest) = c :: collapseSpaces rest := by
  simp [collapseSpaces, hc]

theorem collapseSpaces_cons_space_space {c d : Nat} (r : JSString) (hc : isSpace c = true)
    (hd : isSpace d = true) : collapseSpaces (c :: d :: r) = collapseSpaces (d :: r) := by
  simp [collapseSpaces, hc, hd]

theorem collapseSpaces_cons_space_other {c d : Nat} (r : JSString) (hc : isSpace c = true)
    (hd : isSpace d = false) :
    collapseSpaces (c :: d :: r) = space :: d :: collapseSpaces r := by
  simp [collapseSpaces, hc, hd]

theorem collapseSpaces_singleton_space {c : Nat} (hc : isSpace c = true) :
    collapseSpaces [c] = [space] := by
  simp [collapseSpaces, hc]

theorem isSpace_gtSign : isSpace gtSign = false := by decide

theorem isSpace_ltSign : isSpace ltSign = false := by decide

theorem isSpace_space : isSpace space = true := by decide

theorem gtSign_mem_of_mem_collapseSpaces {l : JSString} (h : gtSign ∈ collapseSpaces l) :
    gtSign ∈ l := by
  rcases mem_collapseSpaces l h with h1 | h1
  · exact h1
  · exact absurd h1 (by decide)

theorem matchTag_collapseSpaces_isSome {rest : JSString}
    (h : (matchTag (collapseSpaces rest)).isSome = true) : (matchTag rest).isSome = true := by
  obtain ⟨d, r, hdr, hd, hmem⟩ := (matchTag_isSome_iff _).1 h
  have hg : gtSign ∈ rest :=
    gtSign_mem_of_mem_collapseSpaces (by rw [hdr]; exact List.mem_cons_of_mem _ hmem)
  cases rest with
  | nil => simp at hg
  | cons e rest2 =>
    have he : e ≠ gtSign := by
      intro he
      subst he
      rw [collapseSpaces_cons_of_not_space _ isSpace_gtSign] at hdr
      simp only [List.cons.injEq] at hdr
      exact hd hdr.1.symm
    refine (matchTag_isSome_iff _).2 ⟨e, rest2, rfl, he, ?_⟩
    rcases List.mem_cons.1 hg with h1 | h1
    · exact absurd h1.symm he
    · exact h1

theorem hasTag_cons_of_hasTag {c : Nat} {l : JSString} (h : hasTag l = true) :
    hasTag (c :: l) = true := by
  simp [hasTag, h]

theorem hasTag_cons_space {c : Nat} {l : JSString} (hc : isSpace c = true)
    (h : hasTag (c :: l) = true) : hasTag l = true := by
  have hne : (c == ltSign) = false := by
    cases hb : (c == ltSign) with
    | false => rfl
    | true =>
      have : c = ltSign := by simpa using hb
      rw [this, isSpace_ltSign] at hc
      simp at hc
  simpa [hasTag, hne] using h

theorem hasTag_of_hasTag_collapseSpaces : ∀ (l : JSString),
    hasTag (collapseSpaces l) = true → hasTag l = true := by
  intro l
  induction l with
  | nil => intro h; simp [collapseSpaces, hasTag] at h
  | cons c rest ih =>
    intro h
    cases hc : isSpace c with
    | false =>
      rw [collapseSpaces_cons_of_not_space _ hc] at h
      simp only [hasTag, Bool.or_eq_true, Bool.and_eq_true] at h ⊢
      rcases h with ⟨h1, h2⟩ | h2
      · exact Or.inl ⟨h1, matchTag_collapseSpaces_isSome h2⟩
      · exact Or.inr (ih h2)
    | true =>
      apply hasTag_cons_of_hasTag
      cases rest with
      | nil =>
        rw [collapseSpaces_singleton_space hc] at h
        simp [hasTag, space, ltSign] at h
      | cons d r =>
        cases hd : isSpace d with
        | true =>
          rw [collapseSpaces_cons_space_space _ hc hd] at h
          exact ih h
        | false =>
          rw [collapseSpaces_cons_space_other _ hc hd] at h
          rw [collapseSpaces_cons_of_not_space _ hd] at ih
          exact ih (hasTag_cons_space isSpace_space h)

theorem hasTag_of_hasTag_suffix {l₁ l₂ : JSString} (hs : l₁ <:+ l₂)
    (h : hasTag l₁ = true) : hasTag l₂ = true := by
  obtain ⟨t, rfl⟩ := hs
  induction t with
  | nil => simpa using h
  | cons c t ih => exact hasTag_cons_of_hasTag ih

theorem matchTag_isSome_of_initial_segment {l₁ l₂ : JSString} (hp : l₁ <+: l₂)
    (h : (matchTag l₁).isSome = true) : (matchTag l₂).isSome = true := by
  obtain ⟨d, r, rfl, hd, hmem⟩ := (matchTag_isSome_iff _).1 h
  obtain ⟨t, rfl⟩ := hp
  exact (matchTag_isSome_iff _).2 ⟨d, r ++ t, rfl, hd, List.mem_append_left _ hmem⟩

theorem hasTag_of_initial_segment : ∀ (l₁ l₂ : JSString), l₁ <+: l₂ →
    hasTag l₁ = true → hasTag l₂ = true := by
  intro l₁
  induction l₁ with
  | nil => intro l₂ _ h; simp [hasTag] at h
  | cons c l₁ ih =>
    intro l₂ hp h
    obtain ⟨t, rfl⟩ := hp
    simp only [List.cons_append, hasTag, Bool.or_eq_true, Bool.and_eq_true] at h ⊢
    rcases h with ⟨h1, h2⟩ | h2
    · exact Or.inl ⟨h1, matchTag_isSome_of_initial_segment (List.prefix_append _ _) h2⟩
    · exact Or.inr (ih _ (List.prefix_append _ _) h2)

theorem trim_eq_rdropWhile (l : JSString) :
    trim l = (l.dropWhile isSpace).rdropWhile isSpace := rfl

theorem trim_initial_segment (l : JSString) : trim l <+: l.dropWhile isSpace := by
  rw [trim_eq_rdropWhile]
  exact List.rdropWhile_prefix _ _

theorem trim_length_le (l : JSString) : (trim l).length ≤ l.length :=
  le_trans (trim_initial_segment l).length_le (List.dropWhile_suffix _).length_le

theorem hasTag_of_hasTag_trim {l : JSString} (h : hasTag (trim l) = true) :
    hasTag l = true :=
  hasTag_of_hasTag_suffix (List.dropWhile_suffix _)
    (hasTag_of_initial_segment _ _ (trim_initial_segment l) h)

/-- No match of `<[^>]+>` is left in the output of `stripHtml`. -/
theorem hasTag_stripHtml (x : JSString) : hasTag (stripHtml x) = false := by
  cases h : hasTag (stripHtml x) with
  | false => rfl
  | true =>
    have h1 : hasTag (cleaned x) = true :=
      hasTag_of_initial_segment _ _ (List.take_prefix _ _) h
    have h2 := hasTag_of_hasTag_collapseSpaces _ (hasTag_of_hasTag_trim h1)
    rw [hasTag_stripTags] at h2
    simp at h2

theorem isCollapsed_cons (c : Nat) (rest : JSString) :
    isCollapsed (c :: rest) =
      ((!isSpace c || (c == space && !(rest.head?.any isSpace))) && isCollapsed rest) := rfl

theorem isCollapsed_collapseSpaces : ∀ (l : JSString), isCollapsed (collapseSpaces l) = true := by
  intro l
  induction l with
  | nil => rfl
  | cons c rest ih =>
    cases hc : isSpace c with
    | false =>
      rw [collapseSpaces_cons_of_not_space _ hc, isCollapsed_cons, ih]
      simp [hc]
    | true =>
      cases rest with
      | nil =>
        rw [collapseSpaces_singleton_space hc]
        decide
      | cons d r =>
        cases hd : isSpace d with
        | true =>
          rw [collapseSpaces_cons_space_space _ hc hd]
          exact ih
        | false =>
          rw [collapseSpaces_cons_space_other _ hc hd]
          rw [collapseSpaces_cons_of_not_space _ hd] at ih
          rw [isCollapsed_cons, ih]
          simp [hd, Option.any]

/-- A whitespace-normal string is left unchanged by the whitespace collapse. -/
theorem collapseSpaces_of_isCollapsed : ∀ (l : JSString), isCollapsed l = true →
    collapseSpaces l = l := by
  intro l
  induction l with
  | nil => intro _; rfl
  | cons c rest ih =>
    intro h
    rw [isCollapsed_cons] at h
    simp only [Bool.and_eq_true, Bool.or_eq_true, Bool.not_eq_true', beq_iff_eq] at h
    obtain ⟨h1, h2⟩ := h
    cases hc : isSpace c with
    | false => rw [collapseSpaces_cons_of_not_space _ hc, ih h2]
    | true =>
      rw [hc] at h1
      rcases h1 with h1 | ⟨h1, h3⟩
      · simp at h1
      · subst h1
        cases rest with
        | nil => exact collapseSpaces_singleton_space hc
        | cons d r =>
          have hd : isSpace d = false := by simpa [Option.any] using h3
          rw [collapseSpaces_cons_space_other _ hc hd]
          have := ih h2
          rw [collapseSpaces_cons_of_not_space _ hd] at this
          rw [this]

theorem isCollapsed_of_suffix {l₁ l₂ : JSString} (hs : l₁ <:+ l₂)
    (h : isCollapsed l₂ = true) : isCollapsed l₁ = true := by
  obtain ⟨t, rfl⟩ := hs
  induction t with
  | nil => simpa using h
  | cons c t ih =>
    rw [List.cons_append, isCollapsed_cons] at h
    simp only [Bool.and_eq_true] at h
    exact ih h.2

theorem isCollapsed_of_initial_segment : ∀ (l₁ l₂ : JSString), l₁ <+: l₂ →
    isCollapsed l₂ = true → isCollapsed l₁ = true := by
  intro l₁
  induction l₁ with
  | nil => intro _ _ _; rfl
  | cons c l₁ ih =>
    intro l₂ hp h
    obtain ⟨t, rfl⟩ := hp
    rw [List.cons_append, isCollapsed_cons] at h
    rw [isCollapsed_cons]
    simp only [Bool.and_eq_true, Bool.or_eq_true, Bool.not_eq_true', beq_iff_eq] at h ⊢
    refine ⟨?_, ih _ (List.prefix_append _ _) h.2⟩
    rcases h.1 with h1 | ⟨h1, h3⟩
    · exact Or.inl h1
    · refine Or.inr ⟨h1, ?_⟩
      cases l₁ with
      | nil => rfl
      | cons d r => simpa [Option.any] using h3

theorem isSpace_eq_space_of_isCollapsed : ∀ (l : JSString), isCollapsed l = true →
    ∀ c ∈ l, isSpace c = true → c = space := by
  intro l
  induction l with
  | nil => intro _ c hc; simp at hc
  | cons d rest ih =>
    intro h c hc hs
    rw [isCollapsed_cons] at h
    simp only [Bool.and_eq_true, Bool.or_eq_true, Bool.not_eq_true', beq_iff_eq] at h
    rcases List.mem_cons.1 hc with h1 | h1
    · subst h1
      rcases h.1 with h2 | h2
      · rw [hs] at h2; simp at h2
      · exact h2.1
    · exact ih h.2 c h1 hs

/-- The output of `stripHtml` is whitespace-normal. -/
theorem isCollapsed_stripHtml (x : JSString) : isCollapsed (stripHtml x) = true :=
  isCollapsed_of_initial_segment _ _ (List.take_prefix _ _)
    (isCollapsed_of_initial_segment _ _ (trim_initial_segment _)
      (isCollapsed_of_suffix (List.dropWhile_suffix _) (isCollapsed_collapseSpaces _)))

theorem stripHtml_length_le (x : JSString) : (stripHtml x).length ≤ 200 := by
  simp only [stripHtml, substring0, List.length_take]
  exact Nat.min_le_left _ _

/-- A second application of `stripHtml` only trims its argument. -/
theorem stripHtml_stripHtml (x : JSString) :
    stripHtml (stripHtml x) = trim (stripHtml x) := by
  have h1 : stripTags (stripHtml x) = stripHtml x :=
    stripTags_of_hasTag_false _ (hasTag_stripHtml x)
  have h2 : collapseSpaces (stripHtml x) = stripHtml x :=
    collapseSpaces_of_isCollapsed _ (isCollapsed_stripHtml x)
  have h3 : (trim (stripHtml x)).length ≤ 200 :=
    le_trans (trim_length_le _) (stripHtml_length_le x)
  conv_lhs => rw [stripHtml, cleaned, h1, h2, substring0]
  exact List.take_of_length_le h3

/-- No leading whitespace: every code unit at the head is not whitespace. -/
theorem head_not_space_of_prefix_dropWhile {l w : JSString}
    (hp : l <+: w.dropWhile isSpace) : l.dropWhile isSpace = l := by
  cases l with
  | nil => rfl
  | cons c r =>
    obtain ⟨t, ht⟩ := hp
    have hne : w.dropWhile isSpace ≠ [] := by rw [← ht]; simp
    have := List.head_dropWhile_not isSpace w hne
    have hc : isSpace c = false := by
      simpa [← ht] using this
    simp [List.dropWhile_cons, hc]

theorem trim_trim (w : JSString) : trim (trim w) = trim w := by
  have h1 : (trim w).dropWhile isSpace = trim w :=
    head_not_space_of_prefix_dropWhile (trim_initial_segment w)
  conv_lhs => rw [trim_eq_rdropWhile, h1, trim_eq_rdropWhile]
  rw [List.rdropWhile_idempotent]
  rfl

theorem trim_stripHtml_of_getLast (x : JSString)
    (h : (stripHtml x).getLast? ≠ some space) : trim (stripHtml x) = stripHtml x := by
  have hp : stripHtml x <+: (collapseSpaces (stripTags x)).dropWhile isSpace :=
    (List.take_prefix _ _).trans (trim_initial_segment _)
  rw [trim_eq_rdropWhile, head_not_space_of_prefix_dropWhile hp]
  rw [List.rdropWhile_eq_self_iff]
  intro hl hs
  have hmem : (stripHtml x).getLast hl ∈ stripHtml x := List.getLast_mem hl
  have := isSpace_eq_space_of_isCollapsed _ (isCollapsed_stripHtml x) _ hmem (by simpa using hs)
  apply h
  rw [List.getLast?_eq_getLast _ hl, this]

theorem stripHtml_eq_cleaned {x : JSString} (h : (cleaned x).length ≤ 200) :
    stripHtml x = cleaned x := by
  simp only [stripHtml, substring0]
  exact List.take_of_length_le h

theorem getLast?_ne_space_of_trim_eq {y : JSString} (hy : trim y = y) :
    y.getLast? ≠ some space := by
  intro hl
  have hne : trim y ≠ [] := by
    rw [hy]
    intro h0
    rw [h0] at hl
    simp at hl
  have hnot := List.rdropWhile_last_not isSpace (y.dropWhile isSpace) hne
  have h1 : (trim y).getLast? = some space := by rw [hy]; exact hl
  rw [List.getLast?_eq_getLast _ hne] at h1
  simp only [Option.some.injEq] at h1
  apply hnot
  have h2 : (List.rdropWhile isSpace (List.dropWhile isSpace y)).getLast hne = space := h1
  rw [h2]
  exact isSpace_space

/-! ## C1, C2 : stripHtml -/

set_option maxRecDepth 100000 in
/-- C1 (counterexample): `stripHtml` is not idempotent.  On 199 letters `a` followed by
a space and a letter `b` the cut after 200 code units leaves a trailing space, which a
second application trims away. -/
theorem stripHtml_not_idempotent :
    stripHtml (List.replicate 199 97 ++ [32, 98]) = List.replicate 199 97 ++ [32] ∧
    stripHtml (stripHtml (List.replicate 199 97 ++ [32, 98])) = List.replicate 199 97 ∧
    stripHtml (stripHtml (List.replicate 199 97 ++ [32, 98])) ≠
      stripHtml (List.replicate 199 97 ++ [32, 98]) := by
  decide

/-- C1 (amended): for every text `x`, `stripHtml (stripHtml x)` is `stripHtml x`
trimmed; the two are equal exactly when `stripHtml x` does not end in a space, which
is the case whenever the tag-stripped, collapsed, trimmed text has at most 200 code
units. -/
theorem stripHtml_idempotent_iff (x : JSString) :
    stripHtml (stripHtml x) = trim (stripHtml x) ∧
    (stripHtml (stripHtml x) = stripHtml x ↔ (stripHtml x).getLast? ≠ some space) ∧
    ((cleaned x).length ≤ 200 → stripHtml (stripHtml x) = stripHtml x) := by
  refine ⟨stripHtml_stripHtml x, ⟨fun h => ?_, fun h => ?_⟩, fun h => ?_⟩
  · rw [stripHtml_stripHtml] at h
    exact getLast?_ne_space_of_trim_eq h
  · rw [stripHtml_stripHtml]
    exact trim_stripHtml_of_getLast x h
  · rw [stripHtml_stripHtml, stripHtml_eq_cleaned h]
    exact trim_trim _

/-- C1 (witness): a short text with tags and runs of whitespace. -/
theorem stripHtml_idempotent_iff_witness :
    (cleaned (js "<p>Hello   <b>world</b></p>  ")).length ≤ 200 ∧
    stripHtml (stripHtml (js "<p>Hello   <b>world</b></p>  ")) =
      stripHtml (js "<p>Hello   <b>world</b></p>  ") :=
  ⟨by decide, (stripHtml_idempotent_iff (js "<p>Hello   <b>world</b></p>  ")).2.2 (by decide)⟩

/-- C2: the output of `stripHtml` has at most 200 code units; it is the first 200 code
units of the tag-stripped, whitespace-collapsed, trimmed text, and is that text
unchanged when the text has at most 200 code units. -/
theorem stripHtml_length_le_and_cut (x : JSString) :
    (stripHtml x).length ≤ 200 ∧
    stripHtml x = (trim (collapseSpaces (stripTags x))).take 200 ∧
    ((trim (collapseSpaces (stripTags x))).length ≤ 200 →
      stripHtml x = trim (collapseSpaces (stripTags x))) :=
  ⟨stripHtml_length_le x, rfl, fun h => stripHtml_eq_cleaned h⟩

/-- C2 (witness): a short text is returned cleaned and uncut. -/
theorem stripHtml_length_le_and_cut_witness :
    (trim (collapseSpaces (stripTags (js " <i>a</i>\n\tb ")))).length ≤ 200 ∧
    stripHtml (js " <i>a</i>\n\tb ") = js "a b" :=
  ⟨by decide, ((stripHtml_length_le_and_cut (js " <i>a</i>\n\tb ")).2.2 (by decide)).trans
    (by decide)⟩

/-! ## Lemmas on the stable sort -/

theorem perm_insertSorted {α : Type} (cmp : α → α → Int) (x : α) :
    ∀ l : List α, (insertSorted cmp x l).Perm (x :: l) := by
  intro l
  induction l with
  | nil => exact List.Perm.refl _
  | cons y ys ih =>
    simp only [insertSorted]
    split
    · exact List.Perm.refl _
    · exact (List.Perm.cons y ih).trans (List.Perm.swap x y ys)

theorem perm_stableSort {α : Type} (cmp : α → α → Int) :
    ∀ l : List α, (stableSort cmp l).Perm l := by
  intro l
  induction l with
  | nil => exact List.Perm.refl _
  | cons x xs ih =>
    simp only [stableSort]
    exact (perm_insertSorted cmp x _).trans (List.Perm.cons x ih)

theorem mem_stableSort {α : Type} (cmp : α → α → Int) {a : α} {l : List α} :
    a ∈ stableSort cmp l ↔ a ∈ l :=
  (perm_stableSort cmp l).mem_iff

theorem length_stableSort {α : Type} (cmp : α → α → Int) (l : List α) :
    (stableSort cmp l).length = l.length :=
  (perm_stableSort cmp l).length_eq

theorem filter_insertSorted {α : Type} (cmp : α → α → Int) (p : α → Bool) (x : α)
    (hp : ∀ a b, p a = true → p b = true → cmp a b ≤ 0) :
    ∀ l : List α, (insertSorted cmp x l).filter p = (x :: l).filter p := by
  intro l
  induction l with
  | nil => rfl
  | cons y ys ih =>
    simp only [insertSorted]
    split
    · rfl
    · rename_i hxy
      cases hpx : p x with
      | false =>
        rw [List.filter_cons, ih]
        simp [List.filter_cons, hpx]
      | true =>
        cases hpy : p y with
        | false =>
          rw [List.filter_cons, ih]
          simp [List.filter_cons, hpx, hpy]
        | true => exact absurd (hp x y hpx hpy) hxy

/-- Stability: the elements selected by a predicate whose members are never strictly
out of order keep their relative order. -/
theorem filter_stableSort {α : Type} (cmp : α → α → Int) (p : α → Bool)
    (hp : ∀ a b, p a = true → p b = true → cmp a b ≤ 0) :
    ∀ l : List α, (stableSort cmp l).filter p = l.filter p := by
  intro l
  induction l with
  | nil => rfl
  | cons x xs ih =>
    simp only [stableSort]
    rw [filter_insertSorted cmp p x hp, List.filter_cons, List.filter_cons, ih]

theorem pairwise_insertSorted {α : Type} (cmp : α → α → Int) (P : α → Prop)
    (htot : ∀ a b, P a → P b → ¬ cmp a b ≤ 0 → cmp b a ≤ 0)
    (htrans : ∀ a b c, P a → P b → P c → cmp a b ≤ 0 → cmp b c ≤ 0 → cmp a c ≤ 0)
    (x : α) (hx : P x) :
    ∀ l : List α, (∀ a ∈ l, P a) → l.Pairwise (fun a b => cmp a b ≤ 0) →
      (insertSorted cmp x l).Pairwise (fun a b => cmp a b ≤ 0) := by
  intro l
  induction l with
  | nil => intro _ _; simp [insertSorted]
  | cons y ys ih =>
    intro hP hpw
    have hy : P y := hP y (List.mem_cons_self _ _)
    have hys : ∀ a ∈ ys, P a := fun a ha => hP a (List.mem_cons_of_mem _ ha)
    rw [List.pairwise_cons] at hpw
    simp only [insertSorted]
    split
    · rename_i hxy
      refine List.Pairwise.cons ?_ (List.Pairwise.cons hpw.1 hpw.2)
      intro z hz
      rcases List.mem_cons.1 hz with h | h
      · rw [h]; exact hxy
      · exact htrans x y z hx hy (hys z h) hxy (hpw.1 z h)
    · rename_i hxy
      refine List.Pairwise.cons ?_ (ih hys hpw.2)
      intro z hz
      rcases List.mem_cons.1 ((perm_insertSorted cmp x ys).mem_iff.1 hz) with h | h
      · rw [h]; exact htot x y hx hy hxy
      · exact hpw.1 z h

theorem pairwise_stableSort {α : Type} (cmp : α → α → Int) (P : α → Prop)
    (htot : ∀ a b, P a → P b → ¬ cmp a b ≤ 0 → cmp b a ≤ 0)
    (htrans : ∀ a b c, P a → P b → P c → cmp a b ≤ 0 → cmp b c ≤ 0 → cmp a c ≤ 0) :
    ∀ l : List α, (∀ a ∈ l, P a) → (stableSort cmp l).Pairwise (fun a b => cmp a b ≤ 0) := by
  intro l
  induction l with
  | nil => intro _; simp [stableSort]
  | cons x xs ih =>
    intro hP
    simp only [stableSort]
    refine pairwise_insertSorted cmp P htot htrans x (hP x (List.mem_cons_self _ _)) _ ?_
      (ih (fun a ha => hP a (List.mem_cons_of_mem _ ha)))
    intro a ha
    exact hP a (List.mem_cons_of_mem _ ((mem_stableSort cmp).1 ha))

/-- A list that is already in order is returned unchanged. -/
theorem stableSort_of_pairwise {α : Type} (cmp : α → α → Int) :
    ∀ l : List α, l.Pairwise (fun a b => cmp a b ≤ 0) → stableSort cmp l = l := by
  intro l
  induction l with
  | nil => intro _; rfl
  | cons x xs ih =>
    intro h
    rw [List.pairwise_cons] at h
    simp only [stableSort, ih h.2]
    cases xs with
    | nil => rfl
    | cons y ys => simp [insertSorted, h.1 y (List.mem_cons_self _ _)]

/-! ## Lemmas on the deduplication -/

theorem dedupeBy_sublist {α κ : Type} [DecidableEq κ] (k : α → κ) :
    ∀ (l : List α) (seen : List κ), (dedupeBy k seen l).Sublist l := by
  intro l
  induction l with
  | nil => intro _; exact List.Sublist.refl _
  | cons x xs ih =>
    intro seen
    simp only [dedupeBy]
    split
    · exact (ih seen).cons x
    · exact (ih _).cons₂ x

theorem dedupeBy_not_mem_seen {α κ : Type} [DecidableEq κ] (k : α → κ) :
    ∀ (l : List α) (seen : List κ), ∀ a ∈ dedupeBy k seen l, k a ∉ seen := by
  intro l
  induction l with
  | nil => intro _ a ha; simp [dedupeBy] at ha
  | cons x xs ih =>
    intro seen a ha
    simp only [dedupeBy] at ha
    split at ha
    · exact ih seen a ha
    · rename_i hx
      rcases List.mem_cons.1 ha with h | h
      · rw [h]; exact hx
      · exact fun hmem => ih _ a h (List.mem_cons_of_mem _ hmem)

/-- No two kept elements share a key. -/
theorem dedupeBy_pairwise {α κ : Type} [DecidableEq κ] (k : α → κ) :
    ∀ (l : List α) (seen : List κ),
      (dedupeBy k seen l).Pairwise (fun a b => k a ≠ k b) := by
  intro l
  induction l with
  | nil => intro _; simp [dedupeBy]
  | cons x xs ih =>
    intro seen
    simp only [dedupeBy]
    split
    · exact ih seen
    · refine List.Pairwise.cons ?_ (ih _)
      intro b hb heq
      exact dedupeBy_not_mem_seen k xs _ b hb (by rw [← heq]; exact List.mem_cons_self _ _)

/-- Elements with pairwise distinct keys, none of them seen, are all kept. -/
theorem dedupeBy_eq_self {α κ : Type} [DecidableEq κ] (k : α → κ) :
    ∀ (l : List α) (seen : List κ), l.Pairwise (fun a b => k a ≠ k b) →
      (∀ a ∈ l, k a ∉ seen) → dedupeBy k seen l = l := by
  intro l
  induction l with
  | nil => intro _ _ _; rfl
  | cons x xs ih =>
    intro seen hpw hseen
    rw [List.pairwise_cons] at hpw
    have hx : k x ∉ seen := hseen x (List.mem_cons_self _ _)
    simp only [dedupeBy, hx, if_false]
    rw [ih _ hpw.2]
    intro a ha hmem
    rcases List.mem_cons.1 hmem with h | h
    · exact hpw.1 a ha h.symm
    · exact hseen a (List.mem_cons_of_mem _ ha) h

/-- The filter keeps exactly the elements whose key occurs neither in the initial set
nor on an earlier element. -/
theorem dedupeBy_eq_filter {α κ : Type} [DecidableEq κ] (k : α → κ) :
    ∀ (l pre : List α) (seen : List κ), (∀ key, key ∈ seen ↔ ∃ y ∈ pre, k y = key) →
      dedupeBy k seen l =
        ((l.enumFrom pre.length).filter (fun p =>
          ((pre ++ l).take p.1).all (fun y => decide (k y ≠ k p.2)))).map Prod.snd := by
  intro l
  induction l with
  | nil => intro _ _ _; rfl
  | cons x xs ih =>
    intro pre seen hseen
    have hstep : ∀ key, key ∈ (if k x ∈ seen then seen else k x :: seen) ↔
        ∃ y ∈ pre ++ [x], k y = key := by
      intro key
      have hsplit : (∃ y ∈ pre ++ [x], k y = key) ↔ ((∃ y ∈ pre, k y = key) ∨ k x = key) := by
        constructor
        · rintro ⟨y, hy, hk⟩
          rcases List.mem_append.1 hy with h | h
          · exact Or.inl ⟨y, h, hk⟩
          · rw [List.mem_singleton.1 h] at hk
            exact Or.inr hk
        · rintro (⟨y, hy, hk⟩ | hk)
          · exact ⟨y, List.mem_append_left _ hy, hk⟩
          · exact ⟨x, List.mem_append_right _ (List.mem_singleton.2 rfl), hk⟩
      rw [hsplit, ← hseen key]
      by_cases hx : k x ∈ seen
      · simp only [hx, if_true]
        constructor
        · exact Or.inl
        · rintro (h | h)
          · exact h
          · rw [← h]; exact hx
      · simp only [hx, if_false, List.mem_cons]
        constructor
        · rintro (h | h)
          · exact Or.inr h.symm
          · exact Or.inl h
        · rintro (h | h)
          · exact Or.inr h
          · exact Or.inl h.symm
    have hrec := ih (pre ++ [x]) _ hstep
    simp only [List.length_append, List.length_singleton, List.append_assoc,
      List.singleton_append] at hrec
    have htake : (pre ++ x :: xs).take pre.length = pre := by
      rw [List.take_append_of_le_length (le_refl _), List.take_length]
    simp only [dedupeBy, List.enumFrom_cons, List.filter_cons, htake]
    by_cases hx : k x ∈ seen
    · have hall : (pre.all fun y => decide (k y ≠ k x)) = false := by
        obtain ⟨y, hy, hk⟩ := (hseen (k x)).1 hx
        rw [List.all_eq_false]
        exact ⟨y, hy, by simp [hk]⟩
      simp only [hx, if_true] at hrec ⊢
      rw [hall]
      simpa using hrec
    · have hall : (pre.all fun y => decide (k y ≠ k x)) = true := by
        rw [List.all_eq_true]
        intro y hy
        have : k y ≠ k x := fun hk => hx ((hseen (k x)).2 ⟨y, hy, hk⟩)
        simpa using this
      simp only [hx, if_false] at hrec ⊢
      rw [hall]
      simpa using hrec

theorem titleKey_isSome_iff (lower : JSString → JSString) (v : JSValue) :
    (titleKey lower v).isSome = true ↔ isStr v = true := by
  cases v <;> simp [titleKey, isStr]

theorem dedupeFrom_eq_some_iff (lower : JSString → JSString) :
    ∀ (l : List NewsItem) (seen : List JSString) (out : List NewsItem),
      dedupeFrom lower seen l = some out ↔
        (∀ i ∈ l, isStr i.title = true) ∧
          out = dedupeBy (fun i : NewsItem => titleKey lower i.title) (seen.map some) l := by
  intro l
  induction l with
  | nil =>
    intro seen out
    simp only [dedupeFrom, dedupeBy, Option.some.injEq, List.not_mem_nil, false_implies,
      implies_true, true_and]
    exact eq_comm
  | cons x xs ih =>
    intro seen out
    cases hk : titleKey lower x.title with
    | none =>
      have hx : isStr x.title ≠ true := by
        intro h
        have := (titleKey_isSome_iff lower x.title).2 h
        rw [hk] at this
        simp at this
      simp only [dedupeFrom, hk, Option.bind_eq_bind, Option.none_bind, List.mem_cons,
        forall_eq_or_imp]
      refine ⟨fun h => by simp at h, fun h => absurd h.1.1 hx⟩
    | some key =>
      have hx : isStr x.title = true :=
        (titleKey_isSome_iff lower x.title).1 (by rw [hk]; rfl)
      have hmem : some key ∈ seen.map some ↔ key ∈ seen := by
        simp
      by_cases hin : key ∈ seen
      · simp only [dedupeFrom, hk, Option.bind_eq_bind, Option.some_bind, hin, if_true,
          dedupeBy, hmem.2 hin, List.mem_cons, forall_eq_or_imp, hx, true_and]
        exact ih seen out
      · have hin2 : some key ∉ seen.map some := fun h => hin (hmem.1 h)
        simp only [dedupeFrom, hk, Option.bind_eq_bind, Option.some_bind, hin, if_false,
          dedupeBy, hin2, List.mem_cons, forall_eq_or_imp, hx, true_and]
        cases hrec : dedupeFrom lower (key :: seen) xs with
        | none =>
          simp only [Option.none_bind]
          refine ⟨fun h => by simp at h, ?_⟩
          rintro ⟨hall, -⟩
          have := (ih (key :: seen) _).2 ⟨hall, rfl⟩
          rw [hrec] at this
          simp at this
        | some kept =>
          obtain ⟨hall, hkept⟩ := (ih (key :: seen) kept).1 hrec
          simp only [Option.some_bind, Option.pure_def, Option.some.injEq]
          refine Iff.trans ?_ (and_iff_right hall).symm
          rw [hkept]
          simp only [List.map_cons]
          exact eq_comm

/-- The result of `aggregate`, when there is one: no title throws, and the list is the
first 30 items of the deduplicated sorted list. -/
theorem aggregate_eq_some_iff (sort : List NewsItem → List NewsItem)
    (lower : JSString → JSString) (items out : List NewsItem) :
    aggregate sort lower items = some out ↔
      (∀ i ∈ sort items, isStr i.title = true) ∧
        out = (dedupeBy (fun i : NewsItem => titleKey lower i.title) []
          (sort items)).take 30 := by
  simp only [aggregate, Option.bind_eq_bind, Option.pure_def]
  cases h : dedupeFrom lower [] (sort items) with
  | none =>
    simp only [Option.none_bind]
    refine ⟨fun h => by simp at h, ?_⟩
    rintro ⟨hall, -⟩
    have := (dedupeFrom_eq_some_iff lower (sort items) [] _).2 ⟨hall, rfl⟩
    rw [h] at this
    simp at this
  | some unique =>
    obtain ⟨hall, hu⟩ := (dedupeFrom_eq_some_iff lower _ [] unique).1 h
    simp only [Option.some_bind, Option.some.injEq, List.map_nil] at hu ⊢
    constructor
    · intro ho
      exact ⟨hall, by rw [← ho, hu]⟩
    · rintro ⟨-, ho⟩
      rw [ho, hu]

theorem ConformingSort.mem_iff {sort : List NewsItem → List NewsItem}
    (hs : ConformingSort sort) {i : NewsItem} {items : List NewsItem} :
    i ∈ sort items ↔ i ∈ items :=
  (hs items).1.mem_iff

/-- The stable insertion sort is a conforming sort. -/
theorem conformingSort_stableSort : ConformingSort (stableSort sortCompare) :=
  fun l => ⟨perm_stableSort sortCompare l, fun _ => rfl⟩

/-- Whenever every title is a string, no step throws. -/
theorem aggregate_isSome {sort : List NewsItem → List NewsItem} (hs : ConformingSort sort)
    (lower : JSString → JSString) (items : List NewsItem)
    (h : ∀ i ∈ items, isStr i.title = true) :
    ∃ out, aggregate sort lower items = some out :=
  ⟨_, (aggregate_eq_some_iff sort lower items _).2
    ⟨fun i hi => h i (hs.mem_iff.1 hi), rfl⟩⟩

/-! ## Lemmas on the order of dates -/

theorem sortCompare_le_iff {a b : NewsItem} {ta tb : Int} (ha : a.date = some ta)
    (hb : b.date = some tb) : sortCompare a b ≤ 0 ↔ tb ≤ ta := by
  simp only [sortCompare, compareDates, ha, hb, Option.getD_some]
  omega

theorem sortCompare_of_date_eq {a b : NewsItem} (h : a.date = b.date) :
    sortCompare a b ≤ 0 := by
  cases ha : a.date with
  | none => simp [sortCompare, compareDates, ha]
  | some ta =>
    have hb : b.date = some ta := by rw [← h, ha]
    exact (sortCompare_le_iff ha hb).2 (le_refl _)

theorem earlier_eq_false_of_sortCompare {a b : NewsItem} (h : sortCompare a b ≤ 0) :
    earlier a.date b.date = false := by
  cases ha : a.date with
  | none => simp [earlier]
  | some ta =>
    cases hb : b.date with
    | none => simp [earlier]
    | some tb =>
      have := (sortCompare_le_iff ha hb).1 h
      simp only [earlier, decide_eq_false_iff_not, not_lt]
      exact this

/-- With valid dates only, the sorted list is in descending order of date. -/
theorem stableSort_sorted_of_valid (items : List NewsItem)
    (hv : ∀ i ∈ items, i.date.isSome = true) :
    (stableSort sortCompare items).Pairwise (fun a b => sortCompare a b ≤ 0) := by
  refine pairwise_stableSort sortCompare (fun i => i.date.isSome = true) ?_ ?_ items hv
  · intro a b ha hb hab
    obtain ⟨ta, hta⟩ := Option.isSome_iff_exists.1 ha
    obtain ⟨tb, htb⟩ := Option.isSome_iff_exists.1 hb
    rw [sortCompare_le_iff hta htb] at hab
    rw [sortCompare_le_iff htb hta]
    omega
  · intro a b c ha hb hc hab hbc
    obtain ⟨ta, hta⟩ := Option.isSome_iff_exists.1 ha
    obtain ⟨tb, htb⟩ := Option.isSome_iff_exists.1 hb
    obtain ⟨tc, htc⟩ := Option.isSome_iff_exists.1 hc
    rw [sortCompare_le_iff hta htb] at hab
    rw [sortCompare_le_iff htb htc] at hbc
    rw [sortCompare_le_iff hta htc]
    omega

theorem aggregate_sublist_sorted {sort : List NewsItem → List NewsItem}
    {lower : JSString → JSString} {items out : List NewsItem}
    (h : aggregate sort lower items = some out) : out.Sublist (sort items) := by
  obtain ⟨-, rfl⟩ := (aggregate_eq_some_iff sort lower items out).1 h
  exact (List.take_sublist _ _).trans (dedupeBy_sublist _ _ _)

/-! ## The engine's sort is a conforming sort -/

theorem sortCompare_eq_dateKey {a b : NewsItem} (ha : a.date.isSome = true)
    (hb : b.date.isSome = true) : sortCompare a b = dateKey b - dateKey a := by
  obtain ⟨ta, hta⟩ := Option.isSome_iff_exists.1 ha
  obtain ⟨tb, htb⟩ := Option.isSome_iff_exists.1 hb
  simp [sortCompare, compareDates, dateKey, hta, htb]

/-- Two lists in descending order of a key that have the same elements of every key, in
the same order, are equal. -/
theorem eq_of_sorted_of_filter_eq {α : Type} (key : α → Int) :
    ∀ (S T : List α), S.Pairwise (fun a b => key b ≤ key a) →
      T.Pairwise (fun a b => key b ≤ key a) →
      (∀ k, S.filter (fun a => decide (key a = k)) = T.filter (fun a => decide (key a = k))) →
      S = T := by
  intro S
  induction S with
  | nil =>
    intro T _ _ h
    cases T with
    | nil => rfl
    | cons b T2 =>
      have := h (key b)
      simp at this
  | cons a S2 ih =>
    intro T hS hT h
    cases T with
    | nil =>
      have := h (key a)
      simp at this
    | cons b T2 =>
      rw [List.pairwise_cons] at hS hT
      have hkey : key a = key b := by
        by_contra hne
        have h1 := h (key a)
        have h2 := h (key b)
        have hba : ¬ key b = key a := fun e => hne e.symm
        simp only [List.filter_cons, decide_True, if_true, hba, hne, decide_False,
          Bool.false_eq_true, if_false] at h1 h2
        have ha : a ∈ T2 := by
          have : a ∈ T2.filter (fun x => decide (key x = key a)) := by
            rw [← h1]; exact List.mem_cons_self _ _
          exact (List.mem_filter.1 this).1
        have hb : b ∈ S2 := by
          have : b ∈ S2.filter (fun x => decide (key x = key b)) := by
            rw [h2]; exact List.mem_cons_self _ _
          exact (List.mem_filter.1 this).1
        have := hT.1 a ha
        have := hS.1 b hb
        omega
      have h1 := h (key a)
      have hba : key b = key a := hkey.symm
      simp only [List.filter_cons, decide_True, if_true, hba] at h1
      simp only [List.cons.injEq] at h1
      obtain ⟨hab, -⟩ := h1
      subst hab
      have htail : ∀ k, S2.filter (fun x => decide (key x = k)) =
          T2.filter (fun x => decide (key x = k)) := by
        intro k
        have hk := h k
        simp only [List.filter_cons] at hk
        by_cases hak : key a = k
        · simp only [hak, decide_True, if_true, List.cons.injEq, true_and] at hk
          exact hk
        · simp only [hak, decide_False, Bool.false_eq_true, if_false] at hk
          exact hk
      rw [ih T2 hS.2 hT.2 htail]

theorem searchPos_spec (pivot : NewsItem) (hp : pivot.date.isSome = true)
    (run : List NewsItem) (hv : ∀ e ∈ run, e.date.isSome = true)
    (hs : run.Pairwise (fun a b => dateKey b ≤ dateKey a)) :
    ∀ (fuel left right : Nat), right - left ≤ fuel → left ≤ right → right ≤ run.length →
      (∀ x ∈ run.take left, dateKey pivot ≤ dateKey x) →
      (∀ x ∈ run.drop right, dateKey x < dateKey pivot) →
      (∀ x ∈ run.take (searchPos sortCompare pivot run fuel left right),
          dateKey pivot ≤ dateKey x) ∧
        (∀ x ∈ run.drop (searchPos sortCompare pivot run fuel left right),
          dateKey x < dateKey pivot) := by
  intro fuel
  induction fuel with
  | zero =>
    intro left right hf hlr _ htake hdrop
    have : left = right := by omega
    subst this
    exact ⟨htake, hdrop⟩
  | succ fuel ih =>
    intro left right hf hlr hlen htake hdrop
    simp only [searchPos]
    by_cases hlt : left < right
    · have hmid : left + (right - left) / 2 < run.length := by omega
      simp only [hlt, if_true, List.getElem?_eq_getElem hmid]
      have he : (run[left + (right - left) / 2]).date.isSome = true :=
        hv _ (List.getElem_mem _)
      have hsplit : run.take (left + (right - left) / 2) ++
          run[left + (right - left) / 2] :: run.drop (left + (right - left) / 2 + 1) = run := by
        rw [← List.drop_eq_getElem_cons hmid, List.take_append_drop]
      have hpw := hs
      rw [← hsplit, List.pairwise_append, List.pairwise_cons] at hpw
      by_cases hc : sortCompare pivot (run[left + (right - left) / 2]) < 0
      · simp only [hc, if_true]
        rw [sortCompare_eq_dateKey hp he] at hc
        apply ih left (left + (right - left) / 2) (by omega) (by omega) (by omega) htake
        intro x hx
        rw [List.drop_eq_getElem_cons hmid] at hx
        rcases List.mem_cons.1 hx with h | h
        · rw [h]; omega
        · have := hpw.2.1.1 x h
          omega
      · simp only [hc, if_false]
        rw [sortCompare_eq_dateKey hp he] at hc
        apply ih (left + (right - left) / 2 + 1) right (by omega) (by omega) hlen _ hdrop
        intro x hx
        rw [List.take_succ, List.getElem?_eq_getElem hmid] at hx
        rcases List.mem_append.1 hx with h | h
        · have := hpw.2.2 x h _ (List.mem_cons_self _ _)
          omega
        · have hxe : x = run[left + (right - left) / 2] := by simpa using h
          rw [hxe]
          omega
    · have : left = right := by omega
      subst this
      simp only [hlt, if_false]
      exact ⟨htake, hdrop⟩

/-- Where binary insertion puts the pivot in an ordered run of valid dates: behind the
items that are not older, in front of the older ones. -/
theorem binaryInsert_spec (pivot : NewsItem) (hp : pivot.date.isSome = true)
    (run : List NewsItem) (hv : ∀ e ∈ run, e.date.isSome = true)
    (hs : run.Pairwise (fun a b => dateKey b ≤ dateKey a)) :
    ∃ front back, run = front ++ back ∧
      binaryInsert sortCompare run pivot = front ++ pivot :: back ∧
      (∀ x ∈ front, dateKey pivot ≤ dateKey x) ∧ (∀ x ∈ back, dateKey x < dateKey pivot) := by
  have h := searchPos_spec pivot hp run hv hs run.length 0 run.length (by omega) (by omega)
    (le_refl _) (by simp) (by simp)
  exact ⟨_, _, (List.take_append_drop _ _).symm, rfl, h.1, h.2⟩

theorem binaryInsert_perm {α : Type} (cmp : α → α → Int) (run : List α) (pivot : α) :
    (binaryInsert cmp run pivot).Perm (run ++ [pivot]) := by
  unfold binaryInsert
  have h1 : (List.take (searchPos cmp pivot run run.length 0 run.length) run ++
      pivot :: List.drop (searchPos cmp pivot run run.length 0 run.length) run).Perm
      (pivot :: (List.take (searchPos cmp pivot run run.length 0 run.length) run ++
        List.drop (searchPos cmp pivot run run.length 0 run.length) run)) :=
    List.perm_middle
  rw [List.take_append_drop] at h1
  exact h1.trans (List.perm_append_singleton _ _).symm

theorem binaryInsert_sorted (pivot : NewsItem) (hp : pivot.date.isSome = true)
    (run : List NewsItem) (hv : ∀ e ∈ run, e.date.isSome = true)
    (hs : run.Pairwise (fun a b => dateKey b ≤ dateKey a)) :
    (binaryInsert sortCompare run pivot).Pairwise (fun a b => dateKey b ≤ dateKey a) := by
  obtain ⟨front, back, hrun, hins, hfront, hback⟩ := binaryInsert_spec pivot hp run hv hs
  rw [hins]
  rw [hrun, List.pairwise_append] at hs
  rw [List.pairwise_append, List.pairwise_cons]
  refine ⟨hs.1, ⟨fun x hx => le_of_lt (hback x hx), hs.2.1⟩, ?_⟩
  intro x hx y hy
  rcases List.mem_cons.1 hy with h | h
  · rw [h]; exact hfront x hx
  · exact hs.2.2 x hx y h

theorem binaryInsert_filter (pivot : NewsItem) (hp : pivot.date.isSome = true)
    (run : List NewsItem) (hv : ∀ e ∈ run, e.date.isSome = true)
    (hs : run.Pairwise (fun a b => dateKey b ≤ dateKey a)) (k : Int) :
    (binaryInsert sortCompare run pivot).filter (fun a => decide (dateKey a = k)) =
      (run ++ [pivot]).filter (fun a => decide (dateKey a = k)) := by
  obtain ⟨front, back, hrun, hins, -, hback⟩ := binaryInsert_spec pivot hp run hv hs
  rw [hins, hrun]
  simp only [List.filter_append, List.filter_cons, List.filter_nil, List.append_assoc]
  by_cases hk : dateKey pivot = k
  · have hnil : back.filter (fun a => decide (dateKey a = k)) = [] := by
      rw [List.filter_eq_nil_iff]
      intro x hx
      have := hback x hx
      simp only [decide_eq_true_eq]
      omega
    simp [hk, hnil]
  · simp [hk]

theorem foldl_binaryInsert_perm {α : Type} (cmp : α → α → Int) :
    ∀ (rest acc : List α), (rest.foldl (binaryInsert cmp) acc).Perm (acc ++ rest) := by
  intro rest
  induction rest with
  | nil => intro acc; simp
  | cons x rest ih =>
    intro acc
    rw [List.foldl_cons]
    refine (ih _).trans ?_
    have := (binaryInsert_perm cmp acc x).append_right rest
    simpa using this

theorem foldl_binaryInsert_spec :
    ∀ (rest acc : List NewsItem), (∀ e ∈ rest, e.date.isSome = true) →
      (∀ e ∈ acc, e.date.isSome = true) →
      acc.Pairwise (fun a b => dateKey b ≤ dateKey a) →
      (rest.foldl (binaryInsert sortCompare) acc).Pairwise
          (fun a b => dateKey b ≤ dateKey a) ∧
        ∀ k, (rest.foldl (binaryInsert sortCompare) acc).filter
            (fun a => decide (dateKey a = k)) =
          (acc ++ rest).filter (fun a => decide (dateKey a = k)) := by
  intro rest
  induction rest with
  | nil => intro acc _ _ hs; simp [hs]
  | cons x rest ih =>
    intro acc hrest hacc hs
    have hx : x.date.isSome = true := hrest x (List.mem_cons_self _ _)
    have hrest2 : ∀ e ∈ rest, e.date.isSome = true :=
      fun e he => hrest e (List.mem_cons_of_mem _ he)
    have hacc2 : ∀ e ∈ binaryInsert sortCompare acc x, e.date.isSome = true := by
      intro e he
      have := (binaryInsert_perm sortCompare acc x).mem_iff.1 he
      rcases List.mem_append.1 this with h | h
      · exact hacc e h
      · rw [List.mem_singleton.1 h]; exact hx
    obtain ⟨h1, h2⟩ := ih (binaryInsert sortCompare acc x) hrest2 hacc2
      (binaryInsert_sorted x hx acc hacc hs)
    rw [List.foldl_cons]
    refine ⟨h1, fun k => ?_⟩
    rw [h2 k, List.filter_append, binaryInsert_filter x hx acc hacc hs k]
    rw [← List.filter_append, List.append_assoc, List.singleton_append]

theorem runLength_chain_ascending :
    ∀ (tail : List NewsItem) (prev : NewsItem), prev.date.isSome = true →
      (∀ e ∈ tail, e.date.isSome = true) →
      List.Chain (fun a b => dateKey b ≤ dateKey a) prev
        (tail.take (runLength sortCompare false prev tail)) := by
  intro tail
  induction tail with
  | nil => intro prev _ _; simp [runLength]
  | cons cur rest ih =>
    intro prev hp hv
    have hc : cur.date.isSome = true := hv cur (List.mem_cons_self _ _)
    simp only [runLength, Bool.false_eq_true, if_false]
    by_cases h : sortCompare cur prev < 0
    · simp [h]
    · simp only [h, if_false]
      rw [Nat.add_comm, List.take_succ_cons]
      refine List.Chain.cons ?_ (ih cur hc (fun e he => hv e (List.mem_cons_of_mem _ he)))
      rw [sortCompare_eq_dateKey hc hp] at h
      omega

theorem runLength_chain_descending :
    ∀ (tail : List NewsItem) (prev : NewsItem), prev.date.isSome = true →
      (∀ e ∈ tail, e.date.isSome = true) →
      List.Chain (fun a b => dateKey a < dateKey b) prev
        (tail.take (runLength sortCompare true prev tail)) := by
  intro tail
  induction tail with
  | nil => intro prev _ _; simp [runLength]
  | cons cur rest ih =>
    intro prev hp hv
    have hc : cur.date.isSome = true := hv cur (List.mem_cons_self _ _)
    simp only [runLength, if_true]
    by_cases h : sortCompare cur prev < 0
    · simp only [h, if_true]
      rw [Nat.add_comm, List.take_succ_cons]
      refine List.Chain.cons ?_ (ih cur hc (fun e he => hv e (List.mem_cons_of_mem _ he)))
      rw [sortCompare_eq_dateKey hc hp] at h
      omega
    · simp [h]

theorem engineSort_cons_cons {α : Type} (cmp : α → α → Int) (x y : α) (rest : List α) :
    engineSort cmp (x :: y :: rest) =
      ((x :: y :: rest).drop (2 + runLength cmp (decide (cmp y x < 0)) y rest)).foldl
        (binaryInsert cmp)
        (if decide (cmp y x < 0) = true then
          ((x :: y :: rest).take (2 + runLength cmp (decide (cmp y x < 0)) y rest)).reverse
        else (x :: y :: rest).take (2 + runLength cmp (decide (cmp y x < 0)) y rest)) := rfl

/-- The engine's sort returns a rearrangement of its input, whatever the comparator. -/
theorem engineSort_perm {α : Type} (cmp : α → α → Int) (l : List α) :
    (engineSort cmp l).Perm l := by
  cases l with
  | nil => exact List.Perm.refl _
  | cons x l2 =>
    cases l2 with
    | nil => exact List.Perm.refl _
    | cons y rest =>
      rw [engineSort_cons_cons]
      refine (foldl_binaryInsert_perm cmp _ _).trans ?_
      have hrun : (if decide (cmp y x < 0) = true then
          ((x :: y :: rest).take (2 + runLength cmp (decide (cmp y x < 0)) y rest)).reverse
        else (x :: y :: rest).take (2 + runLength cmp (decide (cmp y x < 0)) y rest)).Perm
          ((x :: y :: rest).take (2 + runLength cmp (decide (cmp y x < 0)) y rest)) := by
        split
        · exact List.reverse_perm _
        · exact List.Perm.refl _
      have := hrun.append_right
        ((x :: y :: rest).drop (2 + runLength cmp (decide (cmp y x < 0)) y rest))
      rw [List.take_append_drop] at this
      exact this

theorem filter_length_le_one_of_strict {l : List NewsItem}
    (h : l.Pairwise (fun a b => dateKey a < dateKey b)) (k : Int) :
    (l.filter (fun a => decide (dateKey a = k))).length ≤ 1 := by
  have hf : (l.filter (fun a => decide (dateKey a = k))).Pairwise
      (fun a b => dateKey a < dateKey b) := h.sublist (List.filter_sublist _)
  cases hl : l.filter (fun a => decide (dateKey a = k)) with
  | nil => simp
  | cons a t =>
    cases t with
    | nil => simp
    | cons b t2 =>
      exfalso
      rw [hl, List.pairwise_cons] at hf
      have hab := hf.1 b (List.mem_cons_self _ _)
      have ha : a ∈ l.filter (fun a => decide (dateKey a = k)) := by
        rw [hl]; exact List.mem_cons_self _ _
      have hb : b ∈ l.filter (fun a => decide (dateKey a = k)) := by
        rw [hl]; exact List.mem_cons_of_mem _ (List.mem_cons_self _ _)
      have ha2 : dateKey a = k := by simpa using (List.mem_filter.1 ha).2
      have hb2 : dateKey b = k := by simpa using (List.mem_filter.1 hb).2
      omega

theorem reverse_eq_self_of_length_le_one {α : Type} {l : List α} (h : l.length ≤ 1) :
    l.reverse = l := by
  cases l with
  | nil => rfl
  | cons a t =>
    cases t with
    | nil => rfl
    | cons b t2 => simp at h

/-- With valid dates only, the engine's sort returns the stable sorted list. -/
theorem engineSort_eq_stableSort (l : List NewsItem)
    (hv : ∀ i ∈ l, i.date.isSome = true) :
    engineSort sortCompare l = stableSort sortCompare l := by
  have hstable : (stableSort sortCompare l).Pairwise (fun a b => dateKey b ≤ dateKey a) := by
    refine (stableSort_sorted_of_valid l hv).imp_of_mem ?_
    intro a b ha hb hab
    rw [sortCompare_eq_dateKey (hv a ((mem_stableSort _).1 ha))
      (hv b ((mem_stableSort _).1 hb))] at hab
    omega
  have hfilter : ∀ k, (stableSort sortCompare l).filter (fun a => decide (dateKey a = k)) =
      l.filter (fun a => decide (dateKey a = k)) := by
    intro k
    apply filter_stableSort
    intro a b ha hb
    have ha2 : dateKey a = k := by simpa using ha
    have hb2 : dateKey b = k := by simpa using hb
    cases hda : a.date with
    | none => simp [sortCompare, compareDates, hda]
    | some ta =>
      cases hdb : b.date with
      | none => simp [sortCompare, compareDates, hdb]
      | some tb =>
        simp only [dateKey, hda, hdb, Option.getD_some] at ha2 hb2
        simp only [sortCompare, compareDates, hda, hdb, Option.getD_some]
        omega
  cases l with
  | nil => rfl
  | cons x l2 =>
    cases l2 with
    | nil => rfl
    | cons y rest =>
      have hx : x.date.isSome = true := hv x (List.mem_cons_self _ _)
      have hy : y.date.isSome = true :=
        hv y (List.mem_cons_of_mem _ (List.mem_cons_self _ _))
      have hrest : ∀ e ∈ rest, e.date.isSome = true :=
        fun e he => hv e (List.mem_cons_of_mem _ (List.mem_cons_of_mem _ he))
      have htake : ∀ m, (x :: y :: rest).take (2 + m) = x :: y :: rest.take m := by
        intro m
        rw [Nat.add_comm]
        rfl
      have hrun : (if decide (sortCompare y x < 0) = true then
            ((x :: y :: rest).take
              (2 + runLength sortCompare (decide (sortCompare y x < 0)) y rest)).reverse
          else (x :: y :: rest).take
              (2 + runLength sortCompare (decide (sortCompare y x < 0)) y rest)).Pairwise
            (fun a b => dateKey b ≤ dateKey a) ∧
          ∀ k, (if decide (sortCompare y x < 0) = true then
            ((x :: y :: rest).take
              (2 + runLength sortCompare (decide (sortCompare y x < 0)) y rest)).reverse
          else (x :: y :: rest).take
              (2 + runLength sortCompare (decide (sortCompare y x < 0)) y rest)).filter
              (fun a => decide (dateKey a = k)) =
            ((x :: y :: rest).take
              (2 + runLength sortCompare (decide (sortCompare y x < 0)) y rest)).filter
              (fun a => decide (dateKey a = k)) := by
        by_cases hd : sortCompare y x < 0
        · have hchain := runLength_chain_descending rest y hy hrest
          have hxy : dateKey x < dateKey y := by
            rw [sortCompare_eq_dateKey hy hx] at hd
            omega
          have hpw : (x :: y :: rest.take (runLength sortCompare true y rest)).Pairwise
              (fun a b => dateKey a < dateKey b) := by
            have hc : List.Chain (fun a b : NewsItem => dateKey a < dateKey b) x
                (y :: rest.take (runLength sortCompare true y rest)) :=
              List.Chain.cons hxy hchain
            haveI : IsTrans NewsItem (fun a b => dateKey a < dateKey b) :=
              ⟨fun _ _ _ h1 h2 => lt_trans h1 h2⟩
            exact List.chain_iff_pairwise.1 hc
          simp only [hd, decide_True, if_true, htake]
          refine ⟨?_, fun k => ?_⟩
          · rw [List.pairwise_reverse]
            exact hpw.imp (fun h => le_of_lt h)
          · rw [List.filter_reverse]
            exact reverse_eq_self_of_length_le_one (filter_length_le_one_of_strict hpw k)
        · have hchain := runLength_chain_ascending rest y hy hrest
          have hxy : dateKey y ≤ dateKey x := by
            rw [sortCompare_eq_dateKey hy hx] at hd
            omega
          have hpw : (x :: y :: rest.take (runLength sortCompare false y rest)).Pairwise
              (fun a b => dateKey b ≤ dateKey a) := by
            have hc : List.Chain (fun a b : NewsItem => dateKey b ≤ dateKey a) x
                (y :: rest.take (runLength sortCompare false y rest)) :=
              List.Chain.cons hxy hchain
            haveI : IsTrans NewsItem (fun a b => dateKey b ≤ dateKey a) :=
              ⟨fun _ _ _ h1 h2 => le_trans h2 h1⟩
            exact List.chain_iff_pairwise.1 hc
          simp only [hd, decide_False, Bool.false_eq_true, if_false, htake]
          exact ⟨hpw, fun _ => trivial⟩
      have hmemtake : ∀ n, ∀ e ∈ (x :: y :: rest).take n, e.date.isSome = true :=
        fun n e he => hv e (List.mem_of_mem_take he)
      have hrunvalid : ∀ e ∈ (if decide (sortCompare y x < 0) = true then
            ((x :: y :: rest).take
              (2 + runLength sortCompare (decide (sortCompare y x < 0)) y rest)).reverse
          else (x :: y :: rest).take
              (2 + runLength sortCompare (decide (sortCompare y x < 0)) y rest)),
          e.date.isSome = true := by
        intro e he
        split at he
        · exact hmemtake _ e (List.mem_reverse.1 he)
        · exact hmemtake _ e he
      have hfold := foldl_binaryInsert_spec
        ((x :: y :: rest).drop
          (2 + runLength sortCompare (decide (sortCompare y x < 0)) y rest)) _
        (fun e he => hv e (List.mem_of_mem_drop he)) hrunvalid hrun.1
      rw [engineSort_cons_cons]
      refine eq_of_sorted_of_filter_eq dateKey _ _ hfold.1 hstable ?_
      intro k
      rw [hfold.2 k, List.filter_append, hrun.2 k, ← List.filter_append,
        List.take_append_drop, hfilter k]

/-- The engine's sort is a conforming sort. -/
theorem conformingSort_engineSort : ConformingSort (engineSort sortCompare) :=
  fun l => ⟨engineSort_perm sortCompare l, engineSort_eq_stableSort l⟩

/-! ## C3 - C7 : aggregation -/

/-- C3: after aggregation no two items of the resulting list share a deduplication
key (the first 60 code units of the lowercased title); and there is a resulting list
whenever every title is a string. -/
theorem aggregate_keys_distinct (sort : List NewsItem → List NewsItem)
    (hs : ConformingSort sort) (lower : JSString → JSString) (items : List NewsItem) :
    ((∀ i ∈ items, isStr i.title = true) → ∃ out, aggregate sort lower items = some out) ∧
    (∀ out, aggregate sort lower items = some out →
      out.Pairwise (fun a b => titleKey lower a.title ≠ titleKey lower b.title) ∧
      ∀ i ∈ out, ∃ s, i.title = .str s ∧ titleKey lower i.title = some ((lower s).take 60)) := by
  refine ⟨aggregate_isSome hs lower items, ?_⟩
  intro out h
  have hsub := aggregate_sublist_sorted h
  obtain ⟨hall, rfl⟩ := (aggregate_eq_some_iff sort lower items out).1 h
  refine ⟨(dedupeBy_pairwise (fun i : NewsItem => titleKey lower i.title) _ _).sublist
    (List.take_sublist _ _), ?_⟩
  intro i hi
  have hstr := hall i (hsub.subset hi)
  cases ht : i.title with
  | str s => exact ⟨s, rfl, rfl⟩
  | undefined => rw [ht] at hstr; simp [isStr] at hstr
  | arr _ => rw [ht] at hstr; simp [isStr] at hstr
  | obj _ => rw [ht] at hstr; simp [isStr] at hstr
  | func => rw [ht] at hstr; simp [isStr] at hstr

/-- C3 (witness): two items whose titles agree up to letter case and one with another
title; the more recent of the two is kept. -/
theorem aggregate_keys_distinct_witness :
    aggregate (stableSort sortCompare) lowerAscii
      [sampleItem "Rate decision" (some jan1), sampleItem "RATE DECISION" (some feb1),
        sampleItem "Annual report" (some mar1)] =
      some [sampleItem "Annual report" (some mar1), sampleItem "RATE DECISION" (some feb1)] ∧
    [sampleItem "Annual report" (some mar1), sampleItem "RATE DECISION" (some feb1)].Pairwise
      (fun a b => titleKey lowerAscii a.title ≠ titleKey lowerAscii b.title) :=
  ⟨by decide, ((aggregate_keys_distinct (stableSort sortCompare) conformingSort_stableSort
    lowerAscii
    [sampleItem "Rate decision" (some jan1), sampleItem "RATE DECISION" (some feb1),
      sampleItem "Annual report" (some mar1)]).2 _ (by decide)).1⟩

/-- C4 (the code at the failing input): with an Invalid Date between them, an item
dated 2024-01-01 stays in front of an item dated 2024-03-01.  The comparator returns
NaN for every pair with the invalid date and the sort treats NaN as a tie: the engine's
sort, a conforming sort, finds one run, the stable insertion sort finds nothing to
move, and the list is left as it was, which is not in descending order of date. -/
theorem aggregate_not_sorted_with_invalid_date :
    ConformingSort (engineSort sortCompare) ∧
    aggregate (engineSort sortCompare) lowerAscii
      [sampleItem "a" (some jan1), sampleItem "b" none, sampleItem "c" (some mar1)] =
      some [sampleItem "a" (some jan1), sampleItem "b" none, sampleItem "c" (some mar1)] ∧
    aggregate (stableSort sortCompare) lowerAscii
      [sampleItem "a" (some jan1), sampleItem "b" none, sampleItem "c" (some mar1)] =
      some [sampleItem "a" (some jan1), sampleItem "b" none, sampleItem "c" (some mar1)] ∧
    ¬ [sampleItem "a" (some jan1), sampleItem "b" none, sampleItem "c" (some mar1)].Pairwise
      (fun x y => earlier x.date y.date = false) :=
  ⟨conformingSort_engineSort, by decide⟩

/-- Sorting with valid dates: for every list of items whose dates are all valid, the
aggregated list is sorted by date descending: no item is dated earlier than an item
after it.  Items dated 2024-01-01, 2024-03-01, 2024-02-01 come out in the order 03-01,
02-01, 01-01. -/
theorem aggregate_sorted_of_valid_dates (sort : List NewsItem → List NewsItem)
    (hs : ConformingSort sort) (lower : JSString → JSString)
    (items : List NewsItem) (hv : ∀ i ∈ items, i.date.isSome = true) :
    ((∀ i ∈ items, isStr i.title = true) → ∃ out, aggregate sort lower items = some out) ∧
    (∀ out, aggregate sort lower items = some out →
      out.Pairwise (fun a b => earlier a.date b.date = false) ∧
      ∀ i ∈ out, i.date.isSome = true) ∧
    aggregate (engineSort sortCompare) lowerAscii [sampleItem "Jan" (some jan1),
        sampleItem "Mar" (some mar1), sampleItem "Feb" (some feb1)] =
      some [sampleItem "Mar" (some mar1), sampleItem "Feb" (some feb1),
        sampleItem "Jan" (some jan1)] := by
  refine ⟨aggregate_isSome hs lower items, ?_, by decide⟩
  intro out h
  have hsub := aggregate_sublist_sorted h
  refine ⟨?_, fun i hi => hv i (hs.mem_iff.1 (hsub.subset hi))⟩
  rw [(hs items).2 hv] at hsub
  exact ((stableSort_sorted_of_valid items hv).imp
    (fun hab => earlier_eq_false_of_sortCompare hab)).sublist hsub

/-- Sorting with valid dates, at three dated items, the oldest first. -/
theorem aggregate_sorted_of_valid_dates_witness :
    aggregate (stableSort sortCompare) lowerAscii [sampleItem "Jan" (some jan1),
        sampleItem "Mar" (some mar1), sampleItem "Feb" (some feb1)] =
      some [sampleItem "Mar" (some mar1), sampleItem "Feb" (some feb1),
        sampleItem "Jan" (some jan1)] ∧
    [sampleItem "Mar" (some mar1), sampleItem "Feb" (some feb1),
        sampleItem "Jan" (some jan1)].Pairwise (fun a b => earlier a.date b.date = false) :=
  ⟨by decide, ((aggregate_sorted_of_valid_dates (stableSort sortCompare)
    conformingSort_stableSort lowerAscii [sampleItem "Jan" (some jan1),
    sampleItem "Mar" (some mar1), sampleItem "Feb" (some feb1)] (by decide)).2.1 _
      (by decide)).1⟩

/-- Every key of the input is represented in the output by its first holder. -/
theorem dedupeBy_find_first {α κ : Type} [DecidableEq κ] (k : α → κ) :
    ∀ (l : List α) (seen : List κ), ∀ x ∈ l, k x ∉ seen →
      ∃ y ∈ dedupeBy k seen l, l.find? (fun z => decide (k z = k x)) = some y := by
  intro l
  induction l with
  | nil => intro _ x hx; simp at hx
  | cons a rest ih =>
    intro seen x hx hseen
    by_cases hax : k a = k x
    · have ha : k a ∉ seen := by rw [hax]; exact hseen
      refine ⟨a, ?_, ?_⟩
      · simp [dedupeBy, ha]
      · simp [List.find?, hax]
    · have hxr : x ∈ rest := by
        rcases List.mem_cons.1 hx with h | h
        · exact absurd (by rw [h]) hax
        · exact h
      have hfind : (a :: rest).find? (fun z => decide (k z = k x)) =
          rest.find? (fun z => decide (k z = k x)) := by
        simp [List.find?, hax]
      rw [hfind]
      simp only [dedupeBy]
      split
      · exact ih seen x hxr hseen
      · obtain ⟨y, hy, hf⟩ := ih (k a :: seen) x hxr (by
          intro hmem
          rcases List.mem_cons.1 hmem with h | h
          · exact hax h.symm
          · exact hseen h)
        exact ⟨y, List.mem_cons_of_mem _ hy, hf⟩

theorem dedupeFrom_eq_firstOccurrences {lower : JSString → JSString}
    {l out : List NewsItem} (h : dedupeFrom lower [] l = some out) :
    out = firstOccurrences lower l := by
  obtain ⟨-, rfl⟩ := (dedupeFrom_eq_some_iff lower l [] out).1 h
  have := dedupeBy_eq_filter (fun i : NewsItem => titleKey lower i.title) l [] []
    (by intro key; simp)
  simpa [firstOccurrences, List.enum] using this

/-- C5: deduplication keeps the first occurrence.  For every list `l` (in `main`: the
date-sorted list) the filter returns exactly the items of `l` whose key occurs on no
earlier item of `l`, in the order of `l`; so of the items that share a key the one that
comes first in `l` is in the result.  The filter returns a list whenever every title is
a string, and the aggregated list is the first 30 items of what it returns on the
sorted list, whatever the sort. -/
theorem dedupe_keeps_first_occurrence (sort : List NewsItem → List NewsItem)
    (lower : JSString → JSString) (l : List NewsItem) :
    ((∀ i ∈ l, isStr i.title = true) → ∃ out, dedupeFrom lower [] l = some out) ∧
    (∀ out, dedupeFrom lower [] l = some out →
      out = firstOccurrences lower l ∧
      ∀ x ∈ l, ∃ y ∈ out,
        l.find? (fun z => decide (titleKey lower z.title = titleKey lower x.title)) = some y) ∧
    (∀ out, aggregate sort lower l = some out →
      out = (firstOccurrences lower (sort l)).take 30) := by
  refine ⟨fun hall => ⟨_, (dedupeFrom_eq_some_iff lower l [] _).2 ⟨hall, rfl⟩⟩, ?_, ?_⟩
  · intro out h
    refine ⟨dedupeFrom_eq_firstOccurrences h, ?_⟩
    obtain ⟨-, rfl⟩ := (dedupeFrom_eq_some_iff lower l [] out).1 h
    intro x hx
    exact dedupeBy_find_first (fun i : NewsItem => titleKey lower i.title) l [] x hx
      (by simp)
  · intro out h
    simp only [aggregate, Option.bind_eq_bind, Option.pure_def] at h
    cases hd : dedupeFrom lower [] (sort l) with
    | none => rw [hd] at h; simp at h
    | some unique =>
      rw [hd] at h
      simp only [Option.some_bind, Option.some.injEq] at h
      rw [← h, dedupeFrom_eq_firstOccurrences hd]

/-- C5 (witness): of two items whose titles agree up to letter case the first in sort
order, the more recent one, is kept. -/
theorem dedupe_keeps_first_occurrence_witness :
    (∀ i ∈ [sampleItem "RATE DECISION" (some feb1), sampleItem "Rate decision" (some jan1)],
      isStr i.title = true) ∧
    dedupeFrom lowerAscii []
      [sampleItem "RATE DECISION" (some feb1), sampleItem "Rate decision" (some jan1)] =
        some [sampleItem "RATE DECISION" (some feb1)] ∧
    firstOccurrences lowerAscii
      [sampleItem "RATE DECISION" (some feb1), sampleItem "Rate decision" (some jan1)] =
        [sampleItem "RATE DECISION" (some feb1)] :=
  ⟨by decide, by decide,
    ((dedupe_keeps_first_occurrence (stableSort sortCompare) lowerAscii
      [sampleItem "RATE DECISION" (some feb1), sampleItem "Rate decision" (some jan1)]).2.1
      [sampleItem "RATE DECISION" (some feb1)] (by decide)).1.symm⟩

set_option maxRecDepth 100000 in
/-- C6 (the code at the failing input): thirty-one items with pairwise distinct keys,
the first dated 2024-01-01, the last dated 2024-03-01, the others with an Invalid Date.
The list is left in its order (by the engine's sort and by the stable insertion sort
alike), the item of 2024-01-01 is kept and the later item of 2024-03-01 is dropped: the
thirty kept items are not the most recent. -/
theorem aggregate_keeps_older_with_invalid_dates :
    ConformingSort (engineSort sortCompare) ∧
    thirtyOneItems.Pairwise
      (fun a b => titleKey lowerAscii a.title ≠ titleKey lowerAscii b.title) ∧
    aggregate (engineSort sortCompare) lowerAscii thirtyOneItems =
      some (thirtyOneItems.take 30) ∧
    aggregate (stableSort sortCompare) lowerAscii thirtyOneItems =
      some (thirtyOneItems.take 30) ∧
    sampleItem "A" (some jan1) ∈ thirtyOneItems.take 30 ∧
    sampleItem "0" (some mar1) ∈ thirtyOneItems.drop 30 ∧
    earlier (sampleItem "A" (some jan1)).date (sampleItem "0" (some mar1)).date = true :=
  ⟨conformingSort_engineSort, by decide⟩

/-- Truncation: the aggregated list never has more than 30 items; for an input of `n`
items with pairwise distinct keys it has exactly `min n 30` items (30 for 45 items),
and when moreover all dates are valid these are the most recent: no kept item is dated
earlier than a dropped item. -/
theorem aggregate_truncation (sort : List NewsItem → List NewsItem)
    (hs : ConformingSort sort) (lower : JSString → JSString) (items : List NewsItem) :
    ((∀ i ∈ items, isStr i.title = true) → ∃ out, aggregate sort lower items = some out) ∧
    (∀ out, aggregate sort lower items = some out →
      out.length ≤ 30 ∧
      (items.Pairwise (fun a b => titleKey lower a.title ≠ titleKey lower b.title) →
        out.length = min items.length 30 ∧
        (items.length = 45 → out.length = 30) ∧
        ((∀ i ∈ items, i.date.isSome = true) →
          ∃ dropped, (out ++ dropped).Perm items ∧
            ∀ k ∈ out, ∀ d ∈ dropped, earlier k.date d.date = false))) := by
  refine ⟨aggregate_isSome hs lower items, ?_⟩
  intro out h
  obtain ⟨-, rfl⟩ := (aggregate_eq_some_iff sort lower items out).1 h
  refine ⟨by simp only [List.length_take]; exact Nat.min_le_left _ _, ?_⟩
  intro hdist
  have hsorted : (sort items).Pairwise
      (fun a b => titleKey lower a.title ≠ titleKey lower b.title) :=
    ((hs items).1.pairwise_iff (fun hxy => Ne.symm hxy)).2 hdist
  have hself : dedupeBy (fun i : NewsItem => titleKey lower i.title) []
      (sort items) = sort items :=
    dedupeBy_eq_self _ _ _ hsorted (by intro a _ hmem; simp at hmem)
  rw [hself]
  have hlen : ((sort items).take 30).length = min items.length 30 := by
    rw [List.length_take, (hs items).1.length_eq, Nat.min_comm]
  refine ⟨hlen, fun h45 => by rw [hlen, h45]; rfl, ?_⟩
  intro hv
  refine ⟨(sort items).drop 30, ?_, ?_⟩
  · rw [List.take_append_drop]
    exact (hs items).1
  · intro k hk d hd
    have hpw := stableSort_sorted_of_valid items hv
    rw [← (hs items).2 hv, ← List.take_append_drop 30 (sort items)] at hpw
    exact earlier_eq_false_of_sortCompare ((List.pairwise_append.1 hpw).2.2 k hk d hd)

set_option maxRecDepth 100000 in
/-- Truncation at forty-five items with distinct titles and valid dates: thirty. -/
theorem aggregate_truncation_witness :
    fortyFiveItems.length = 45 ∧
    ∃ out, aggregate (stableSort sortCompare) lowerAscii fortyFiveItems = some out ∧
      out.length = 30 := by
  obtain ⟨out, hout⟩ := (aggregate_truncation (stableSort sortCompare)
    conformingSort_stableSort lowerAscii fortyFiveItems).1 (by decide)
  exact ⟨by decide, out, hout,
    (((aggregate_truncation (stableSort sortCompare) conformingSort_stableSort lowerAscii
      fortyFiveItems).2 out hout).2 (by decide)).2.1 (by decide)⟩

/-- C7 (the code at the failing input): seven items, of which `first` and `second` are
both dated 2024-02-01 and were collected in this order, among items with an Invalid
Date.  The engine's sort, a conforming sort, puts `second` in front of `first` by binary
insertion: the two items of equal date have changed their relative order. -/
theorem aggregate_not_stable_with_invalid_dates :
    ConformingSort (engineSort sortCompare) ∧
    sevenItems.filter (fun i => decide (i.date = some feb1)) =
      [sampleItem "first" (some feb1), sampleItem "second" (some feb1)] ∧
    aggregate (engineSort sortCompare) lowerAscii sevenItems =
      some [sampleItem "n1" none, sampleItem "n2" none, sampleItem "new" (some mar1),
        sampleItem "second" (some feb1), sampleItem "old" (some jan1), sampleItem "n3" none,
        sampleItem "first" (some feb1)] ∧
    [sampleItem "n1" none, sampleItem "n2" none, sampleItem "new" (some mar1),
        sampleItem "second" (some feb1), sampleItem "old" (some jan1), sampleItem "n3" none,
        sampleItem "first" (some feb1)].filter (fun i => decide (i.date = some feb1)) =
      [sampleItem "second" (some feb1), sampleItem "first" (some feb1)] :=
  ⟨conformingSort_engineSort, by decide⟩

/-- Stability with valid dates: when all dates are valid, for every date `d` the items
dated `d` are in the sorted list in their original relative order, and those of them
that are in the aggregated list appear there in the order in which they were
collected. -/
theorem aggregate_stable_of_valid_dates (sort : List NewsItem → List NewsItem)
    (hs : ConformingSort sort) (lower : JSString → JSString) (items : List NewsItem)
    (hv : ∀ i ∈ items, i.date.isSome = true) (d : JSDate) :
    (sort items).filter (fun i => decide (i.date = d)) =
      items.filter (fun i => decide (i.date = d)) ∧
    ((∀ i ∈ items, isStr i.title = true) → ∃ out, aggregate sort lower items = some out) ∧
    (∀ out, aggregate sort lower items = some out →
      (out.filter (fun i => decide (i.date = d))).Sublist
        (items.filter (fun i => decide (i.date = d)))) := by
  have hst : (sort items).filter (fun i => decide (i.date = d)) =
      items.filter (fun i => decide (i.date = d)) := by
    rw [(hs items).2 hv]
    apply filter_stableSort
    intro a b ha hb
    have ha2 : a.date = d := by simpa using ha
    have hb2 : b.date = d := by simpa using hb
    exact sortCompare_of_date_eq (ha2.trans hb2.symm)
  refine ⟨hst, aggregate_isSome hs lower items, ?_⟩
  intro out h
  rw [← hst]
  exact (aggregate_sublist_sorted h).filter _

/-- Stability with valid dates, at two items of the same date and a later one. -/
theorem aggregate_stable_of_valid_dates_witness :
    aggregate (stableSort sortCompare) lowerAscii
        [sampleItem "first" (some jan1), sampleItem "second" (some jan1),
        sampleItem "newer" (some feb1)] =
      some [sampleItem "newer" (some feb1), sampleItem "first" (some jan1),
        sampleItem "second" (some jan1)] ∧
    ([sampleItem "newer" (some feb1), sampleItem "first" (some jan1),
        sampleItem "second" (some jan1)].filter (fun i => decide (i.date = some jan1))).Sublist
      ([sampleItem "first" (some jan1), sampleItem "second" (some jan1),
        sampleItem "newer" (some feb1)].filter (fun i => decide (i.date = some jan1))) :=
  ⟨by decide, (aggregate_stable_of_valid_dates (stableSort sortCompare)
    conformingSort_stableSort lowerAscii [sampleItem "first" (some jan1),
    sampleItem "second" (some jan1), sampleItem "newer" (some feb1)] (by decide)
    (some jan1)).2.2 _ (by decide)⟩

/-! ## C8 : guessType -/

theorem includes_append (a w b : JSString) : includes (a ++ w ++ b) w = true := by
  rw [includes, List.any_eq_true]
  exact ⟨w ++ b, (List.mem_tails _ _).2 ⟨a, by simp⟩,
    List.isPrefixOf_iff_prefix.2 (List.prefix_append _ _)⟩

theorem firstMatch_nil (dflt text : JSString) : firstMatch [] dflt text = dflt := rfl

theorem firstMatch_cons (r : List JSString × JSString) (t : List (List JSString × JSString))
    (dflt text : JSString) :
    firstMatch (r :: t) dflt text =
      if r.1.any (includes text) = true then r.2 else firstMatch t dflt text := by
  simp only [firstMatch, List.find?]
  cases r.1.any (includes text) <;> simp

theorem isLetter_of_asciiLower {c k : Nat} (h : asciiLower c = k) (hk : 97 ≤ k ∧ k ≤ 122) :
    (65 ≤ c ∧ c ≤ 90) ∨ (97 ≤ c ∧ c ≤ 122) := by
  unfold asciiLower at h
  split at h
  · rename_i hc
    exact Or.inl hc
  · right
    omega

theorem includes_lower_of_variant {lower : JSString → JSString} (hl : LowersAscii lower)
    {text a w b kw : JSString} (ht : text = a ++ w ++ b) (hw : w.map asciiLower = kw)
    (hkw : ∀ k ∈ kw, 97 ≤ k ∧ k ≤ 122) : includes (lower text) kw = true := by
  have hletters : ∀ c ∈ w, (65 ≤ c ∧ c ≤ 90) ∨ (97 ≤ c ∧ c ≤ 122) := by
    intro c hc
    apply isLetter_of_asciiLower rfl
    apply hkw
    rw [← hw]
    exact List.mem_map_of_mem _ hc
  obtain ⟨a2, b2, h2⟩ := hl a w b hletters
  rw [ht, h2, hw]
  exact includes_append _ _ _

theorem lowersAscii_lowerAscii : LowersAscii lowerAscii := by
  intro a w b _
  exact ⟨a.map asciiLower, b.map asciiLower, by simp [lowerAscii]⟩

/-- C8: classifier precedence.  `guessType` returns the category of the first rule of
the table (Consultation, Warning, Enforcement, Guidance, Publication, Speech) that has
a keyword in the lowercased text, `News` when there is none; so a text with a
consultation keyword is a Consultation also when it has a warning keyword, and this
for keywords written in any letter case. -/
theorem guessType_first_rule_wins (lower : JSString → JSString) (title desc : JSString) :
    guessType lower title desc =
      firstMatch rules (js "📰 News") (lower (title ++ js " " ++ desc)) ∧
    ((includes (lower (title ++ js " " ++ desc)) (js "consultation") = true ∨
        includes (lower (title ++ js " " ++ desc)) (js "consultatie") = true) →
      guessType lower title desc = js "📋 Consultation") ∧
    (LowersAscii lower → ∀ a w b a2 w2 b2 : JSString,
      title ++ js " " ++ desc = a ++ w ++ b →
      title ++ js " " ++ desc = a2 ++ w2 ++ b2 →
      (w.map asciiLower = js "consultation" ∨ w.map asciiLower = js "consultatie") →
      (w2.map asciiLower = js "warning" ∨ w2.map asciiLower = js "waarschuwing") →
      guessType lower title desc = js "📋 Consultation") := by
  have hcons : (includes (lower (title ++ js " " ++ desc)) (js "consultation") = true ∨
        includes (lower (title ++ js " " ++ desc)) (js "consultatie") = true) →
      guessType lower title desc = js "📋 Consultation" := by
    intro h
    simp only [guessType]
    rw [if_pos (by simpa using h)]
  refine ⟨?_, hcons, ?_⟩
  · simp only [guessType, rules, firstMatch_cons, firstMatch_nil, List.any_cons, List.any_nil,
      Bool.or_false, Bool.or_assoc]
  · intro hl a w b _ _ _ ht _ hw _
    apply hcons
    rcases hw with hw | hw
    · exact Or.inl (includes_lower_of_variant hl ht hw (by decide))
    · exact Or.inr (includes_lower_of_variant hl ht hw (by decide))

/-- C8 (witness): an upper-case consultation keyword in the title and a warning
keyword in the description. -/
theorem guessType_first_rule_wins_witness :
    guessType lowerAscii (js "CONSULTATION on fees") (js "Public warning issued") =
      js "📋 Consultation" :=
  (guessType_first_rule_wins lowerAscii (js "CONSULTATION on fees")
    (js "Public warning issued")).2.2 lowersAscii_lowerAscii
    [] (js "CONSULTATION") (js " on fees Public warning issued")
    (js "CONSULTATION on fees Public ") (js "warning") (js " issued")
    (by decide) (by decide) (Or.inl (by decide)) (Or.inl (by decide))

/-! ## C9 : type override -/

/-- A feed record whose `type` is the empty string, which is not a record of `FEEDS`.
The empty string is falsy, so `feed.type || guessType(...)` takes the classifier's
answer: such a record is a feed without an override. -/
theorem empty_type_override_not_applied :
    emptyTypeFeed.type = some [] ∧
    collect lowerAscii (fun _ => []) [(emptyTypeFeed, some [sampleParsed "Rate decision" ""])] =
      [{ title := .str (js "Rate decision"), link := .str (js "https://example.org/"),
         description := [], date := some jan1, source := js "DNB", label := js "🔵 DNB",
         type := js "📰 News" }] ∧
    ¬ ∀ i ∈ collect lowerAscii (fun _ => [])
        [(emptyTypeFeed, some [sampleParsed "Rate decision" ""])],
      some i.type = emptyTypeFeed.type := by
  decide

/-- C9: for every feed record that configures a fixed type (a non-empty text, as every
type configured in `FEEDS` is), every item collected from that feed has exactly that
type, whatever its title and description; for a feed without an override (no `type`,
or an empty one) the item's type is `guessType(title, description)`.  In particular
every item collected from a feed of `FEEDS` that has a type has that type: the one type
configured there is `Warning`. -/
theorem type_override (lower : JSString → JSString) (objToString : JSValue → JSString)
    (feed : FeedSource) (items : List ParsedItem) :
    collect lower objToString [(feed, some items)] =
      items.map (tagItem lower objToString feed) ∧
    (∀ t, feed.type = some t → t ≠ [] →
      ∀ i ∈ collect lower objToString [(feed, some items)], i.type = t) ∧
    ((feed.type = none ∨ feed.type = some []) →
      ∀ item, (tagItem lower objToString feed item).type =
        guessType lower (toJSString objToString item.title) item.description) ∧
    (∀ f ∈ FEEDS, ∀ t, f.type = some t → t = js "Warning" ∧ t ≠ []) ∧
    (feed ∈ FEEDS → ∀ t, feed.type = some t →
      ∀ i ∈ collect lower objToString [(feed, some items)], i.type = t) := by
  have hc : collect lower objToString [(feed, some items)] =
      items.map (tagItem lower objToString feed) := by
    simp [collect]
  have hfeeds : ∀ f ∈ FEEDS, ∀ t, f.type = some t → t = js "Warning" ∧ t ≠ [] := by decide
  have hset : ∀ t, feed.type = some t → t ≠ [] →
      ∀ i ∈ collect lower objToString [(feed, some items)], i.type = t := by
    intro t ht hne i hi
    rw [hc] at hi
    obtain ⟨item, -, rfl⟩ := List.mem_map.1 hi
    have : t.isEmpty = false := by
      cases t with
      | nil => exact absurd rfl hne
      | cons _ _ => rfl
    simp [tagItem, resolveType, ht, this]
  refine ⟨hc, hset, ?_, hfeeds, fun hmem t ht => hset t ht (hfeeds feed hmem t ht).2⟩
  rintro (h | h) item
  · simp [tagItem, resolveType, h]
  · simp [tagItem, resolveType, h]

/-- C9 (witness): the warnings feed of `FEEDS`, with an item that the classifier would
call a consultation. -/
theorem type_override_witness :
    { source := js "AFM", label := js "🟢 AFM",
      url := js "https://www.afm.nl/nl-nl/rss-feed/waarschuwingen-afm",
      website := js "https://www.afm.nl/nl-nl/consumenten/waarschuwingen",
      type := some (js "Warning") } ∈ FEEDS ∧
    js "Warning" ≠ [] ∧
    guessType lowerAscii (js "Consultation on fees") [] = js "📋 Consultation" ∧
    (tagItem lowerAscii (fun _ => [])
      { source := js "AFM", label := js "🟢 AFM",
        url := js "https://www.afm.nl/nl-nl/rss-feed/waarschuwingen-afm",
        website := js "https://www.afm.nl/nl-nl/consumenten/waarschuwingen",
        type := some (js "Warning") }
      (sampleParsed "Consultation on fees" "")).type = js "Warning" :=
  ⟨by decide, by decide, by decide,
    (type_override lowerAscii (fun _ => [])
      { source := js "AFM", label := js "🟢 AFM",
        url := js "https://www.afm.nl/nl-nl/rss-feed/waarschuwingen-afm",
        website := js "https://www.afm.nl/nl-nl/consumenten/waarschuwingen",
        type := some (js "Warning") }
      [sampleParsed "Consultation on fees" ""]).2.1 (js "Warning") rfl (by decide) _
      (by decide)⟩

/-! ## C10 : titles of parsed items -/

/-- Every item that `parseRSS` returns has a truthy title. -/
theorem parseRSS_titles_truthy (newDate : JSValue → JSDate) (now : Int) (result : JSValue)
    (items : List ParsedItem) (h : parseRSS newDate now result = some items) :
    ∀ i ∈ items, truthy i.title = true := by
  intro i hi
  unfold parseRSS at h
  split at h
  · cases hm : mapItems (rssItem newDate now)
        (asArray (prop (prop (prop result "rss") "channel") "item")) with
    | none => rw [hm] at h; simp at h
    | some l =>
      rw [hm] at h
      simp only [Option.bind_eq_bind, Option.some_bind, Option.pure_def,
        Option.some.injEq] at h
      rw [← h] at hi
      exact (List.mem_filter.1 hi).2
  · split at h
    · cases hm : mapItems (atomItem newDate now)
          (asArray (prop (prop result "feed") "entry")) with
      | none => rw [hm] at h; simp at h
      | some l =>
        rw [hm] at h
        simp only [Option.bind_eq_bind, Option.some_bind, Option.pure_def,
          Option.some.injEq] at h
        rw [← h] at hi
        exact (List.mem_filter.1 hi).2
    · simp only [Option.some.injEq] at h
      rw [← h] at hi
      simp at hi

/-- C10 (the code at the failing input): for an RSS item whose `title` element carries
an attribute, `parseRSS` returns an item whose title is the object of text and
attributes, not a string. -/
theorem parseRSS_returns_object_title (newDate : JSValue → JSDate) (now : Int) :
    parseRSS newDate now rssTitleWithAttribute =
      some [{ title := .obj (.cons "_" (.str (js "Rates"))
                (.cons "$" (.obj (.cons "type" (.str (js "html")) .nil)) .nil))
              link := .str (js "https://example.org/")
              description := []
              date := some now }] ∧
    isStr (.obj (.cons "_" (.str (js "Rates"))
      (.cons "$" (.obj (.cons "type" (.str (js "html")) .nil)) .nil))) = false :=
  ⟨rfl, rfl⟩

/-! ## C17, C18 : what stripHtml leaves -/

theorem hasTag_of_tag_infix {l body : JSString} (hne : body ≠ []) (hgt : gtSign ∉ body)
    (h : ([ltSign] ++ body ++ [gtSign]) <:+: l) : hasTag l = true := by
  obtain ⟨pre, post, rfl⟩ := h
  have hsuf : ([ltSign] ++ body ++ [gtSign] ++ post) <:+ (pre ++ ([ltSign] ++ body ++ [gtSign]) ++ post) :=
    ⟨pre, by simp⟩
  apply hasTag_of_hasTag_suffix hsuf
  obtain ⟨d, r, rfl⟩ := List.exists_cons_of_ne_nil hne
  have hd : d ≠ gtSign := fun e => hgt (e ▸ List.mem_cons_self _ _)
  have hm : (matchTag (d :: r ++ [gtSign] ++ post)).isSome = true :=
    (matchTag_isSome_iff _).2 ⟨d, r ++ [gtSign] ++ post, by simp, hd, by simp⟩
  simp only [List.singleton_append, List.cons_append, hasTag, beq_self_eq_true, Bool.true_and,
    Bool.or_eq_true]
  left
  simpa using hm

/-- C17: for every text `x`, `stripHtml x` contains no substring made of `<`, then one or
more code units other than `>`, then `>`. -/
theorem stripHtml_has_no_tag (x : JSString) :
    ¬ ∃ body : JSString, body ≠ [] ∧ gtSign ∉ body ∧
      ([ltSign] ++ body ++ [gtSign]) <:+: stripHtml x := by
  rintro ⟨body, hne, hgt, h⟩
  have := hasTag_of_tag_infix hne hgt h
  rw [hasTag_stripHtml] at this
  simp at this

theorem head?_not_of_dropWhile_eq {α : Type} (p : α → Bool) {l : List α}
    (h : l.dropWhile p = l) : ∀ c, l.head? = some c → p c = false := by
  intro c hc
  cases l with
  | nil => simp at hc
  | cons d r =>
    simp only [List.head?_cons, Option.some.injEq] at hc
    subst hc
    cases hp : p d with
    | false => rfl
    | true =>
      rw [List.dropWhile_cons, hp] at h
      simp only [if_true] at h
      have hlen := (List.dropWhile_suffix p (l := r)).length_le
      rw [h] at hlen
      simp at hlen

theorem chain'_of_isCollapsed : ∀ (l : JSString), isCollapsed l = true →
    List.Chain' (fun a b => ¬ (isSpace a = true ∧ isSpace b = true)) l := by
  intro l
  induction l with
  | nil => intro _; exact List.chain'_nil
  | cons c rest ih =>
    intro h
    rw [isCollapsed_cons] at h
    simp only [Bool.and_eq_true, Bool.or_eq_true, Bool.not_eq_true', beq_iff_eq] at h
    cases rest with
    | nil => exact List.chain'_singleton _
    | cons d r =>
      refine List.Chain'.cons ?_ (ih h.2)
      rintro ⟨hc, hd⟩
      rcases h.1 with h1 | ⟨-, h3⟩
      · rw [hc] at h1; simp at h1
      · simp [Option.any, hd] at h3

set_option maxRecDepth 100000 in
/-- C18 (counterexample): on 199 letters `a`, a space and a letter `b` the result of
`stripHtml` has 200 code units and its last one is a space: trailing whitespace. -/
theorem stripHtml_trailing_space :
    (stripHtml (List.replicate 199 97 ++ [32, 98])).length = 200 ∧
    (stripHtml (List.replicate 199 97 ++ [32, 98])).getLast? = some space ∧
    isSpace space = true := by
  decide

/-- C18 (amended): for every text `x`, `stripHtml x` has no leading whitespace and no
two consecutive whitespace code units, and every whitespace code unit in it is a
space; it has no trailing whitespace when the tag-stripped, collapsed, trimmed text has
at most 200 code units. -/
theorem stripHtml_whitespace (x : JSString) :
    (∀ c, (stripHtml x).head? = some c → isSpace c = false) ∧
    List.Chain' (fun a b => ¬ (isSpace a = true ∧ isSpace b = true)) (stripHtml x) ∧
    (∀ c ∈ stripHtml x, isSpace c = true → c = space) ∧
    ((cleaned x).length ≤ 200 →
      ∀ c, (stripHtml x).getLast? = some c → isSpace c = false) := by
  have hp : stripHtml x <+: (collapseSpaces (stripTags x)).dropWhile isSpace :=
    (List.take_prefix _ _).trans (trim_initial_segment _)
  refine ⟨head?_not_of_dropWhile_eq isSpace (head_not_space_of_prefix_dropWhile hp),
    chain'_of_isCollapsed _ (isCollapsed_stripHtml x),
    isSpace_eq_space_of_isCollapsed _ (isCollapsed_stripHtml x), ?_⟩
  intro hlen c hc
  cases hs : isSpace c with
  | false => rfl
  | true =>
    exfalso
    have hmem : c ∈ stripHtml x := List.mem_of_getLast?_eq_some hc
    have hsp := isSpace_eq_space_of_isCollapsed _ (isCollapsed_stripHtml x) c hmem hs
    have htrim : trim (stripHtml x) = stripHtml x := by
      rw [stripHtml_eq_cleaned hlen]
      exact trim_trim _
    exact getLast?_ne_space_of_trim_eq htrim (by rw [hc, hsp])

/-- C18 (witness): a short text with leading, trailing and repeated whitespace. -/
theorem stripHtml_whitespace_witness :
    (cleaned (js "  a \n\t b  ")).length ≤ 200 ∧
    stripHtml (js "  a \n\t b  ") = js "a b" ∧
    isSpace 98 = false :=
  ⟨by decide, by decide,
    (stripHtml_whitespace (js "  a \n\t b  ")).2.2.2 (by decide) 98 (by decide)⟩

/-! ## C19 : the default category -/

theorem includes_iff_infix (text kw : JSString) :
    includes text kw = true ↔ kw <:+: text := by
  rw [includes, List.any_eq_true, List.infix_iff_prefix_suffix]
  constructor
  · rintro ⟨t, ht, hp⟩
    exact ⟨t, List.isPrefixOf_iff_prefix.1 hp, (List.mem_tails _ _).1 ht⟩
  · rintro ⟨t, hp, ht⟩
    exact ⟨t, (List.mem_tails _ _).2 ht, List.isPrefixOf_iff_prefix.2 hp⟩

/-- C19: `guessType` is a total function whose value is one of the seven labels; it is
the default `News` exactly when none of the fifteen keywords occurs in the lowercased
text `title + ' ' + description`; a keyword occurs when it is a substring, so `fine`
inside `refined` selects Enforcement. -/
theorem guessType_news_iff (lower : JSString → JSString) (title desc : JSString) :
    guessType lower title desc ∈ categoryLabels ∧
    (guessType lower title desc = js "📰 News" ↔
      ∀ kw ∈ keywords, includes (lower (title ++ js " " ++ desc)) kw = false) ∧
    (∀ kw, includes (lower (title ++ js " " ++ desc)) kw = true ↔
      kw <:+: lower (title ++ js " " ++ desc)) ∧
    keywords.length = 15 ∧
    guessType lowerAscii (js "Refined rules") (js "") = js "⚖️ Enforcement" := by
  have h1 : js "📋 Consultation" ≠ js "📰 News" := by decide
  have h2 : js "🔔 Warning" ≠ js "📰 News" := by decide
  have h3 : js "⚖️ Enforcement" ≠ js "📰 News" := by decide
  have h4 : js "📖 Guidance" ≠ js "📰 News" := by decide
  have h5 : js "📊 Publication" ≠ js "📰 News" := by decide
  have h6 : js "🎤 Speech" ≠ js "📰 News" := by decide
  refine ⟨?_, ?_, fun kw => includes_iff_infix _ kw, by decide, by decide⟩
  · simp only [guessType, categoryLabels]
    split_ifs <;> simp
  · simp only [guessType, keywords, List.forall_mem_cons, List.not_mem_nil, false_implies,
      implies_true, and_true]
    generalize lower (title ++ js " " ++ desc) = text
    split_ifs with c1 c2 c3 c4 c5 c6
    · simp only [h1, false_iff]
      intro h
      simp [h.1, h.2.1] at c1
    · simp only [h2, false_iff]
      intro h
      simp [h.2.2.1, h.2.2.2.1] at c2
    · simp only [h3, false_iff]
      intro h
      simp [h.2.2.2.2.1, h.2.2.2.2.2.1, h.2.2.2.2.2.2.1] at c3
    · simp only [h4, false_iff]
      intro h
      simp [h.2.2.2.2.2.2.2.1, h.2.2.2.2.2.2.2.2.1, h.2.2.2.2.2.2.2.2.2.1] at c4
    · simp only [h5, false_iff]
      intro h
      simp [h.2.2.2.2.2.2.2.2.2.2.1, h.2.2.2.2.2.2.2.2.2.2.2.1,
        h.2.2.2.2.2.2.2.2.2.2.2.2.1] at c5
    · simp only [h6, false_iff]
      intro h
      simp [h.2.2.2.2.2.2.2.2.2.2.2.2.2.1, h.2.2.2.2.2.2.2.2.2.2.2.2.2.2] at c6
    · simp only [true_iff]
      simp only [Bool.or_eq_true, not_or, Bool.not_eq_true] at c1 c2 c3 c4 c5 c6
      exact ⟨c1.1, c1.2, c2.1, c2.2, c3.1.1, c3.1.2, c3.2, c4.1.1, c4.1.2, c4.2,
        c5.1.1, c5.1.2, c5.2, c6.1, c6.2⟩

/-- C19 (witness): a title without any keyword. -/
theorem guessType_news_iff_witness :
    guessType lowerAscii (js "Rates unchanged") (js "The policy rate stays at 2%") =
      js "📰 News" :=
  (guessType_news_iff lowerAscii (js "Rates unchanged")
    (js "The policy rate stays at 2%")).2.1.2 (by decide)

/-! ## C20 : aggregation is idempotent -/

/-- C20: for every item list with valid dates, aggregating an already aggregated list
returns it unchanged: it is already sorted, its keys are pairwise distinct and it has at
most 30 items.  A first aggregated list exists whenever every title is a string. -/
theorem aggregate_idempotent (sort : List NewsItem → List NewsItem)
    (hs : ConformingSort sort) (lower : JSString → JSString) (items : List NewsItem)
    (hv : ∀ i ∈ items, i.date.isSome = true) :
    ((∀ i ∈ items, isStr i.title = true) → ∃ out, aggregate sort lower items = some out) ∧
    (∀ out, aggregate sort lower items = some out → aggregate sort lower out = some out) := by
  refine ⟨aggregate_isSome hs lower items, ?_⟩
  intro out h
  have hsub := aggregate_sublist_sorted h
  obtain ⟨hall, hout⟩ := (aggregate_eq_some_iff sort lower items out).1 h
  have hvalid : ∀ i ∈ out, i.date.isSome = true :=
    fun i hi => hv i (hs.mem_iff.1 (hsub.subset hi))
  have hsorted : out.Pairwise (fun a b => sortCompare a b ≤ 0) := by
    have := stableSort_sorted_of_valid items hv
    rw [← (hs items).2 hv] at this
    exact this.sublist hsub
  have hsort : sort out = out := by
    rw [(hs out).2 hvalid]
    exact stableSort_of_pairwise sortCompare out hsorted
  have hkeys : out.Pairwise (fun a b => titleKey lower a.title ≠ titleKey lower b.title) := by
    rw [hout]
    exact (dedupeBy_pairwise (fun i : NewsItem => titleKey lower i.title) _ _).sublist
      (List.take_sublist _ _)
  have hlen : out.length ≤ 30 := by
    rw [hout, List.length_take]
    exact Nat.min_le_left _ _
  rw [aggregate_eq_some_iff, hsort]
  refine ⟨fun i hi => hall i (hsub.subset hi), ?_⟩
  rw [dedupeBy_eq_self _ _ _ hkeys (by intro a _ hmem; simp at hmem)]
  exact (List.take_of_length_le hlen).symm

/-- C20 (witness): a list with a duplicate and dates out of order, aggregated twice. -/
theorem aggregate_idempotent_witness :
    aggregate (stableSort sortCompare) lowerAscii
        [sampleItem "Rate decision" (some jan1), sampleItem "RATE DECISION" (some feb1),
          sampleItem "Annual report" (some mar1)] =
      some [sampleItem "Annual report" (some mar1), sampleItem "RATE DECISION" (some feb1)] ∧
    aggregate (stableSort sortCompare) lowerAscii
        [sampleItem "Annual report" (some mar1), sampleItem "RATE DECISION" (some feb1)] =
      some [sampleItem "Annual report" (some mar1), sampleItem "RATE DECISION" (some feb1)] :=
  ⟨by decide, (aggregate_idempotent (stableSort sortCompare) conformingSort_stableSort
    lowerAscii [sampleItem "Rate decision" (some jan1), sampleItem "RATE DECISION" (some feb1),
      sampleItem "Annual report" (some mar1)] (by decide)).2 _ (by decide)⟩

/-! ## C14 : failure isolation -/

theorem collect_append (lower : JSString → JSString) (objToString : JSValue → JSString) :
    ∀ (pre post : List (FeedSource × Option (List ParsedItem))),
      collect lower objToString (pre ++ post) =
        collect lower objToString pre ++ collect lower objToString post := by
  intro pre
  induction pre with
  | nil => intro post; rfl
  | cons o pre ih =>
    intro post
    obtain ⟨feed, outcome⟩ := o
    cases outcome with
    | none =>
      rw [List.cons_append]
      simp only [collect]
      exact ih post
    | some items =>
      rw [List.cons_append]
      simp only [collect]
      rw [ih post, List.append_assoc]

/-- C14: for every sequence of per-feed outcomes the collected list is the
concatenation, in configuration order, of the tagged items of the feeds that succeeded;
a failing feed adds nothing and the feeds after it are collected as without it. -/
theorem collect_isolates_failures (lower : JSString → JSString)
    (objToString : JSValue → JSString)
    (outcomes : List (FeedSource × Option (List ParsedItem))) :
    collect lower objToString outcomes =
      (outcomes.map (contribution lower objToString)).flatten ∧
    (∀ pre post feed, outcomes = pre ++ (feed, none) :: post →
      collect lower objToString outcomes =
        collect lower objToString pre ++ collect lower objToString post) ∧
    (∀ pre post feed items, outcomes = pre ++ (feed, some items) :: post →
      collect lower objToString outcomes =
        collect lower objToString pre ++ items.map (tagItem lower objToString feed) ++
          collect lower objToString post) := by
  refine ⟨?_, ?_, ?_⟩
  · induction outcomes with
    | nil => rfl
    | cons o rest ih =>
      obtain ⟨feed, outcome⟩ := o
      cases outcome with
      | none => simp only [collect, List.map_cons, contribution, List.flatten_cons,
          List.nil_append, ih]
      | some items => simp only [collect, List.map_cons, contribution, List.flatten_cons, ih]
  · rintro pre post feed rfl
    rw [collect_append]
    simp only [collect]
  · rintro pre post feed items rfl
    rw [collect_append]
    simp only [collect, List.append_assoc]

/-- C14 (witness): the second of three feeds fails. -/
theorem collect_isolates_failures_witness :
    collect lowerAscii (fun _ => [])
        [(emptyTypeFeed, some [sampleParsed "Rate decision" ""]), (emptyTypeFeed, none),
          (emptyTypeFeed, some [sampleParsed "Annual report" ""])] =
      collect lowerAscii (fun _ => []) [(emptyTypeFeed, some [sampleParsed "Rate decision" ""])] ++
        collect lowerAscii (fun _ => [])
          [(emptyTypeFeed, some [sampleParsed "Annual report" ""])] :=
  (collect_isolates_failures lowerAscii (fun _ => [])
    [(emptyTypeFeed, some [sampleParsed "Rate decision" ""]), (emptyTypeFeed, none),
      (emptyTypeFeed, some [sampleParsed "Annual report" ""])]).2.1
    [(emptyTypeFeed, some [sampleParsed "Rate decision" ""])]
    [(emptyTypeFeed, some [sampleParsed "Annual report" ""])] emptyTypeFeed rfl

/-! ## C11 : RSS 2.0 items -/

theorem optGet_eq_prop (v : JSValue) (name : String) : optGet v name = prop v name := by
  cases v <;> rfl

theorem toList_ofList : ∀ l : List JSValue, (JSList.ofList l).toList = l := by
  intro l
  induction l with
  | nil => rfl
  | cons v rest ih => simp only [JSList.ofList, JSList.toList, ih]

theorem truthy_jsOr_empty (v : JSValue) : truthy (jsOr v (.str [])) = truthy v := by
  unfold jsOr
  cases h : truthy v with
  | true => simp [h]
  | false => simp [truthy]

theorem jsOr_of_truthy {v w : JSValue} (h : truthy v = true) : jsOr v w = v := by
  simp [jsOr, h]

theorem isRssItem_ne_undefined {n : JSValue} (h : isRssItem n = true) : n ≠ .undefined := by
  intro e
  rw [e] at h
  simp [isRssItem] at h

theorem isText_description_of_isRssItem {n : JSValue} (h : isRssItem n = true) :
    isText (prop n "description") = true := by
  cases n with
  | obj f =>
    simp only [isRssItem, Bool.and_eq_true] at h
    exact h.2
  | str s => rfl
  | undefined => simp [isRssItem] at h
  | arr _ => simp [isRssItem] at h
  | func => simp [isRssItem] at h

theorem rssItem_eq_rssRecord (newDate : JSValue → JSDate) (now : Int) {n : JSValue}
    (h : isRssItem n = true) : rssItem newDate now n = some (rssRecord newDate now n) := by
  have hget : ∀ name, get n name = some (prop n name) := by
    intro name
    cases n with
    | undefined => simp [isRssItem] at h
    | _ => rfl
  have hd := isText_description_of_isRssItem h
  have hstrip : stripHtmlValue (jsOr (prop n "description") (.str [])) =
      some (stripHtml (textOf (jsOr (prop n "description") (.str [])))) := by
    cases hp : prop n "description" with
    | str s =>
      unfold jsOr
      split <;> rfl
    | undefined => rfl
    | arr _ => rw [hp] at hd; simp [isText] at hd
    | obj _ => rw [hp] at hd; simp [isText] at hd
    | func => rw [hp] at hd; simp [isText] at hd
  simp only [rssItem, hget, hstrip, Option.bind_eq_bind, Option.some_bind, Option.pure_def,
    rssRecord]

theorem mapItems_eq_map (f : JSValue → Option ParsedItem) (g : JSValue → ParsedItem) :
    ∀ nodes : List JSValue, (∀ n ∈ nodes, f n = some (g n)) →
      mapItems f nodes = some (nodes.map g) := by
  intro nodes
  induction nodes with
  | nil => intro _; rfl
  | cons n rest ih =>
    intro h
    simp only [mapItems, h n (List.mem_cons_self _ _),
      ih (fun m hm => h m (List.mem_cons_of_mem _ hm)), Option.bind_eq_bind,
      Option.some_bind, Option.pure_def, List.map_cons]

theorem asArray_itemsValue (nodes : List JSValue) (h : ∀ n ∈ nodes, isRssItem n = true) :
    (truthy (itemsValue nodes) = true ∧ asArray (itemsValue nodes) = nodes) ∨
    (truthy (itemsValue nodes) = false ∧ nodes.filter hasTitle = []) := by
  cases nodes with
  | nil => exact Or.inr ⟨rfl, rfl⟩
  | cons n rest =>
    cases rest with
    | nil =>
      have hn := h n (List.mem_cons_self _ _)
      cases n with
      | obj f => exact Or.inl ⟨rfl, rfl⟩
      | str s =>
        cases s with
        | nil => exact Or.inr ⟨rfl, rfl⟩
        | cons c r => exact Or.inl ⟨rfl, rfl⟩
      | undefined => simp [isRssItem] at hn
      | arr _ => simp [isRssItem] at hn
      | func => simp [isRssItem] at hn
    | cons m rest2 =>
      refine Or.inl ⟨rfl, ?_⟩
      simp only [itemsValue, asArray, toList_ofList]

theorem filter_map_rssRecord (newDate : JSValue → JSDate) (now : Int) (nodes : List JSValue) :
    (nodes.map (rssRecord newDate now)).filter (fun i => truthy i.title) =
      (nodes.filter hasTitle).map (rssRecord newDate now) := by
  induction nodes with
  | nil => rfl
  | cons n rest ih =>
    have ht : truthy (rssRecord newDate now n).title = hasTitle n := by
      simp only [rssRecord, hasTitle, truthy_jsOr_empty]
    simp only [List.map_cons, List.filter_cons, ht]
    cases hasTitle n with
    | true => simp only [if_true, List.map_cons, ih]
    | false => simpa using ih

/-- C11: for every parsed RSS 2.0 tree, with `N` item elements that have a non-empty
title among the `item` children of the channel (one child being stored as the node
itself, several as an array), `parseRSS` returns exactly `N` items, whose titles and
links are those of these elements, in document order. -/
theorem parseRSS_rss_items (newDate : JSValue → JSDate) (now : Int) (result : JSValue)
    (nodes : List JSValue)
    (hitem : prop (prop (prop result "rss") "channel") "item" = itemsValue nodes)
    (hroot : prop result "feed" = .undefined)
    (hnodes : ∀ n ∈ nodes, isRssItem n = true) :
    ∃ items, parseRSS newDate now result = some items ∧
      items.length = (nodes.filter hasTitle).length ∧
      items.map (fun i => i.title) = (nodes.filter hasTitle).map (fun n => prop n "title") ∧
      items.map (fun i => i.link) =
        (nodes.filter hasTitle).map (fun n => jsOr (prop n "link") (.str [])) ∧
      ∀ i ∈ items, isStr i.title = true ∧ i.title ≠ .str [] := by
  refine ⟨(nodes.filter hasTitle).map (rssRecord newDate now), ?_, by simp, ?_, ?_, ?_⟩
  · unfold parseRSS
    simp only [optGet_eq_prop, hitem, hroot]
    rcases asArray_itemsValue nodes hnodes with ⟨ht, ha⟩ | ⟨ht, hf⟩
    · rw [if_pos ht, ha,
        mapItems_eq_map (rssItem newDate now) (rssRecord newDate now) nodes
          (fun n hn => rssItem_eq_rssRecord newDate now (hnodes n hn))]
      simp only [Option.bind_eq_bind, Option.some_bind, Option.pure_def,
        filter_map_rssRecord]
    · have hatom : truthy (prop (JSValue.undefined) "entry") = false := rfl
      rw [if_neg (by simp [ht]), if_neg (by simp [hatom]), hf]
      rfl
  · rw [List.map_map]
    apply List.map_congr_left
    intro n hn
    have : hasTitle n = true := (List.mem_filter.1 hn).2
    simp only [Function.comp, rssRecord]
    exact jsOr_of_truthy this
  · rw [List.map_map]
    rfl
  · intro i hi
    obtain ⟨n, hn, rfl⟩ := List.mem_map.1 hi
    obtain ⟨hmem, ht⟩ := List.mem_filter.1 hn
    have hr := hnodes n hmem
    simp only [rssRecord]
    rw [jsOr_of_truthy ht]
    cases n with
    | obj f =>
      simp only [isRssItem, Bool.and_eq_true] at hr
      simp only [hasTitle] at ht
      cases hp : prop (JSValue.obj f) "title" with
      | str s =>
        rw [hp] at ht
        refine ⟨rfl, ?_⟩
        intro e
        simp only [JSValue.str.injEq] at e
        rw [e] at ht
        simp [truthy] at ht
      | undefined => rw [hp] at ht; simp [truthy] at ht
      | arr _ => rw [hp] at hr; simp [isText] at hr
      | obj _ => rw [hp] at hr; simp [isText] at hr
      | func => rw [hp] at hr; simp [isText] at hr
    | str s => simp [hasTitle, prop, truthy] at ht
    | undefined => simp [isRssItem] at hr
    | arr _ => simp [isRssItem] at hr
    | func => simp [isRssItem] at hr

/-- C11 (witness): a channel with one item, which the parser stores as the node itself,
not as an array. -/
theorem parseRSS_rss_items_witness :
    isRssItem (rssNode "Rates" "https://example.org/a" "Mon, 01 Jan 2024 00:00:00 GMT") = true ∧
    prop (prop (prop (rssDocument
      [rssNode "Rates" "https://example.org/a" "Mon, 01 Jan 2024 00:00:00 GMT"]) "rss")
        "channel") "item" =
      rssNode "Rates" "https://example.org/a" "Mon, 01 Jan 2024 00:00:00 GMT" ∧
    ∃ items, parseRSS sampleNewDate 0 (rssDocument
        [rssNode "Rates" "https://example.org/a" "Mon, 01 Jan 2024 00:00:00 GMT"]) =
        some items ∧
      items.map (fun i => i.title) = [.str (js "Rates")] ∧
      items.map (fun i => i.link) = [.str (js "https://example.org/a")] := by
  obtain ⟨items, h1, -, h3, h4, -⟩ := parseRSS_rss_items sampleNewDate 0
    (rssDocument [rssNode "Rates" "https://example.org/a" "Mon, 01 Jan 2024 00:00:00 GMT"])
    [rssNode "Rates" "https://example.org/a" "Mon, 01 Jan 2024 00:00:00 GMT"]
    (by decide) (by decide) (by decide)
  exact ⟨by decide, by decide, items, h1, h3.trans (by decide), h4.trans (by decide)⟩

/-! ## C12 : Atom links -/

/-- C12 (the code at the failing input): an Atom entry with two `link` elements, each
with an `href` attribute.  The two elements are an array, `i.link.$` is `undefined`,
the array is not a string, and the item's link is the empty string. -/
theorem parseRSS_atom_two_links (newDate : JSValue → JSDate) (now : Int) :
    parseRSS newDate now atomTwoLinks =
      some [{ title := .str (js "Rates"), link := .str [], description := [],
              date := some now }] ∧
    asArray (prop (prop (prop atomTwoLinks "feed") "entry") "link") =
      [.obj (.cons "$" (.obj (.cons "rel" (.str (js "alternate"))
          (.cons "href" (.str (js "https://example.org/a")) .nil))) .nil),
       .obj (.cons "$" (.obj (.cons "rel" (.str (js "related"))
          (.cons "href" (.str (js "https://example.org/b")) .nil))) .nil)] ∧
    (asArray (prop (prop (prop atomTwoLinks "feed") "entry") "link")).map
        (fun l => prop (prop l "$") "href") =
      [.str (js "https://example.org/a"), .str (js "https://example.org/b")] :=
  ⟨rfl, rfl, rfl⟩

/-! ## C13 : the date of a parsed item -/

theorem get_eq_some {v w : JSValue} {name : String} (h : get v name = some w) :
    w = prop v name := by
  cases v with
  | undefined => simp [get] at h
  | str s => simpa [get] using h.symm
  | arr a => simpa [get] using h.symm
  | obj f => simpa [get] using h.symm
  | func => simpa [get] using h.symm

theorem rssItem_date {newDate : JSValue → JSDate} {now : Int} {i : JSValue}
    {item : ParsedItem} (h : rssItem newDate now i = some item) :
    item.date = if truthy (prop i "pubDate") = true then newDate (prop i "pubDate")
      else some now := by
  simp only [rssItem, Option.bind_eq_bind, Option.bind_eq_some, Option.pure_def,
    Option.some.injEq] at h
  obtain ⟨_, _, _, _, _, _, _, _, pubDate, hp, rfl⟩ := h
  rw [get_eq_some hp]

theorem atomItem_date {newDate : JSValue → JSDate} {now : Int} {i : JSValue}
    {item : ParsedItem} (h : atomItem newDate now i = some item) :
    item.date = if truthy (prop i "published") = true then newDate (prop i "published")
      else if truthy (prop i "updated") = true then newDate (prop i "updated")
      else some now := by
  simp only [atomItem, Option.bind_eq_bind, Option.bind_eq_some, Option.pure_def,
    Option.some.injEq] at h
  obtain ⟨_, _, _, _, _, _, _, _, _, _, published, hp, updated, hu, rfl⟩ := h
  rw [get_eq_some hp, get_eq_some hu]

theorem mem_of_mapItems {f : JSValue → Option ParsedItem} :
    ∀ {nodes : List JSValue} {items : List ParsedItem}, mapItems f nodes = some items →
      ∀ item ∈ items, ∃ n ∈ nodes, f n = some item := by
  intro nodes
  induction nodes with
  | nil =>
    intro items h item hi
    simp only [mapItems, Option.some.injEq] at h
    rw [← h] at hi
    simp at hi
  | cons n rest ih =>
    intro items h item hi
    simp only [mapItems, Option.bind_eq_bind, Option.bind_eq_some, Option.pure_def,
      Option.some.injEq] at h
    obtain ⟨first, hf, others, ho, rfl⟩ := h
    rcases List.mem_cons.1 hi with e | hm
    · exact ⟨n, List.mem_cons_self _ _, by rw [e]; exact hf⟩
    · obtain ⟨m, hm2, hfm⟩ := ih ho item hm
      exact ⟨m, List.mem_cons_of_mem _ hm2, hfm⟩

/-- C13 (counterexample): an RSS item whose `pubDate` is the text `not a date`.  The
field is present, so there is no fallback: the item's date is `new Date("not a date")`,
the Invalid Date, not the current time (here 0). -/
theorem parseRSS_keeps_invalid_date :
    sampleNewDate (.str (js "not a date")) = none ∧
    parseRSS sampleNewDate 0
        (rssDocument [rssNode "Rates" "https://example.org/a" "not a date"]) =
      some [{ title := .str (js "Rates"), link := .str (js "https://example.org/a"),
              description := js "Text", date := none }] ∧
    (none : JSDate) ≠ some 0 := by
  decide

/-- C13 (amended): the date of a parsed item is the current time when its date field
(`pubDate` for RSS; `published`, then `updated`, for Atom) is absent or empty, and
otherwise `new Date(field)`: a valid point in time when the field is parseable, the
Invalid Date when it is not.  So every parsed date is valid when every present field is
parseable. -/
theorem parsed_item_date (newDate : JSValue → JSDate) (now : Int) :
    (∀ i item, rssItem newDate now i = some item →
      item.date = if truthy (prop i "pubDate") = true then newDate (prop i "pubDate")
        else some now) ∧
    (∀ i item, atomItem newDate now i = some item →
      item.date = if truthy (prop i "published") = true then newDate (prop i "published")
        else if truthy (prop i "updated") = true then newDate (prop i "updated")
        else some now) ∧
    (∀ result items, parseRSS newDate now result = some items →
      ∀ item ∈ items, item.date = some now ∨ ∃ v, truthy v = true ∧ item.date = newDate v) ∧
    ((∀ v, truthy v = true → (newDate v).isSome = true) →
      ∀ result items, parseRSS newDate now result = some items →
        ∀ item ∈ items, item.date.isSome = true) := by
  have hmain : ∀ result items, parseRSS newDate now result = some items →
      ∀ item ∈ items, item.date = some now ∨
        ∃ v, truthy v = true ∧ item.date = newDate v := by
    intro result items h item hi
    unfold parseRSS at h
    split at h
    · simp only [Option.bind_eq_bind, Option.bind_eq_some, Option.pure_def,
        Option.some.injEq] at h
      obtain ⟨mapped, hm, rfl⟩ := h
      obtain ⟨n, -, hn⟩ := mem_of_mapItems hm item (List.mem_filter.1 hi).1
      have hd := rssItem_date hn
      by_cases hp : truthy (prop n "pubDate") = true
      · rw [if_pos hp] at hd
        exact Or.inr ⟨_, hp, hd⟩
      · rw [if_neg hp] at hd
        exact Or.inl hd
    · split at h
      · simp only [Option.bind_eq_bind, Option.bind_eq_some, Option.pure_def,
          Option.some.injEq] at h
        obtain ⟨mapped, hm, rfl⟩ := h
        obtain ⟨n, -, hn⟩ := mem_of_mapItems hm item (List.mem_filter.1 hi).1
        have hd := atomItem_date hn
        by_cases hp : truthy (prop n "published") = true
        · rw [if_pos hp] at hd
          exact Or.inr ⟨_, hp, hd⟩
        · rw [if_neg hp] at hd
          by_cases hu : truthy (prop n "updated") = true
          · rw [if_pos hu] at hd
            exact Or.inr ⟨_, hu, hd⟩
          · rw [if_neg hu] at hd
            exact Or.inl hd
      · simp only [Option.some.injEq] at h
        rw [← h] at hi
        simp at hi
  refine ⟨fun i item h => rssItem_date h, fun i item h => atomItem_date h, hmain, ?_⟩
  intro hparse result items h item hi
  rcases hmain result items h item hi with hd | ⟨v, hv, hd⟩
  · rw [hd]; rfl
  · rw [hd]; exact hparse v hv

/-- C13 (witness): an RSS item without `pubDate` gets the current time, one with a
parseable `pubDate` its time value. -/
theorem parsed_item_date_witness :
    rssItem sampleNewDate 7 (.obj (.cons "title" (.str (js "Rates")) .nil)) =
      some { title := .str (js "Rates"), link := .str [], description := [],
             date := some 7 } ∧
    (some 7 : JSDate) =
      (if truthy (prop (.obj (.cons "title" (.str (js "Rates")) .nil)) "pubDate") = true then
        sampleNewDate (prop (.obj (.cons "title" (.str (js "Rates")) .nil)) "pubDate")
      else some 7) :=
  ⟨by decide, (parsed_item_date sampleNewDate 7).1
    (.obj (.cons "title" (.str (js "Rates")) .nil))
    { title := .str (js "Rates"), link := .str [], description := [], date := some 7 }
    (by decide)⟩

/-! ## C16 : formatDate -/

/-- C16: formatDate is total, and for every date value it returns the literal
"Unknown date" exactly when the value is not a valid point in time (`new Date` of it is
the Invalid Date); for a valid point in time it returns the text that the builtin
`toLocaleDateString` gives with the options day, short month and numeric year.  The
builtin is a parameter, of which only this is used: its text is never "Unknown date". -/
theorem formatDate_unknown_iff_invalid {α : Type} (toDate : α → JSDate)
    (localeDate : Int → JSString) (hlocale : ∀ t, localeDate t ≠ js "Unknown date")
    (date : α) :
    (formatDate toDate localeDate date = js "Unknown date" ↔ toDate date = none) ∧
    (∀ t, toDate date = some t → formatDate toDate localeDate date = localeDate t) := by
  unfold formatDate
  cases h : toDate date with
  | none => simp
  | some t =>
    refine ⟨⟨fun h1 => absurd h1 (hlocale t), fun h1 => by simp at h1⟩, ?_⟩
    intro u hu
    cases hu
    rfl

/-- Witness of C16: a text that is not a date is formatted as "Unknown date", and the
first of January as the text of the builtin. -/
theorem formatDate_unknown_iff_invalid_witness :
    (formatDate sampleNewDate sampleLocaleDate (.str (js "not a date")) = js "Unknown date" ↔
      sampleNewDate (.str (js "not a date")) = none) ∧
    (∀ t, sampleNewDate (.str (js "not a date")) = some t →
      formatDate sampleNewDate sampleLocaleDate (.str (js "not a date")) =
        sampleLocaleDate t) :=
  formatDate_unknown_iff_invalid sampleNewDate sampleLocaleDate
    (fun t => by unfold sampleLocaleDate; split_ifs <;> decide) (.str (js "not a date"))

/-! ## C15 : the Markdown page -/

theorem splitLines_line (l rest : JSString) (h : lineFeed ∉ l) :
    splitLines (l ++ lineFeed :: rest) = l :: splitLines rest := by
  induction l with
  | nil => simp [splitLines]
  | cons c l ih =>
    have hc : c ≠ lineFeed := fun e => h (by simp [e])
    have hl : lineFeed ∉ l := fun e => h (List.mem_cons_of_mem _ e)
    rw [List.cons_append, splitLines, if_neg hc, ih hl]

theorem unlines_append (a b : List JSString) : unlines (a ++ b) = unlines a ++ unlines b := by
  simp [unlines]

theorem unlines_cons (l : JSString) (ls : List JSString) :
    unlines (l :: ls) = l ++ lineFeed :: unlines ls := by
  simp [unlines]

theorem splitLines_unlines (ls : List JSString) (rest : JSString)
    (h : ∀ l ∈ ls, lineFeed ∉ l) :
    splitLines (unlines ls ++ rest) = ls ++ splitLines rest := by
  induction ls with
  | nil => simp [unlines]
  | cons l ls ih =>
    rw [unlines_cons, List.append_assoc, List.cons_append,
      splitLines_line l _ (h l (List.mem_cons_self _ _)),
      ih (fun m hm => h m (List.mem_cons_of_mem _ hm))]
    rfl

theorem js_two_feeds : js "\n\n" = [lineFeed, lineFeed] := by decide

theorem js_rule_line : js "---\n\n" = js "---" ++ [lineFeed, lineFeed] := by decide

theorem js_link_end : js ")\n\n" = js ")" ++ [lineFeed, lineFeed] := by decide

theorem appendItem_eq (objToString : JSValue → JSString) (localeDate : Int → JSString)
    (md : JSString) (item : NewsItem) :
    appendItem objToString localeDate md item =
      md ++ unlines (itemLines objToString localeDate item) := by
  simp only [appendItem, itemLines, middleLines, headingLine, dateLine, js_two_feeds,
    js_rule_line, js_link_end]
  split_ifs <;> simp [unlines]

theorem foldl_appendItem (objToString : JSValue → JSString) (localeDate : Int → JSString)
    (items : List NewsItem) (md : JSString) :
    items.foldl (appendItem objToString localeDate) md =
      md ++ unlines (items.flatMap (itemLines objToString localeDate)) := by
  induction items generalizing md with
  | nil => simp [unlines]
  | cons item items ih =>
    rw [List.foldl_cons, ih, appendItem_eq, List.flatMap_cons, unlines_append,
      List.append_assoc]

set_option maxRecDepth 100000 in
theorem pageFoot_eq : pageFoot = unlines footLines := by decide

set_option maxRecDepth 100000 in
theorem pageHead_eq (updated : JSString) : pageHead updated = unlines (headLines updated) := by
  have e1 : js "---\n" = js "---" ++ [lineFeed] := by decide
  have e2 : js "description: >-\n" = js "description: >-" ++ [lineFeed] := by decide
  have e3 : js "  Automatisch bijgewerkte regulatory news feed van AFM, DNB, EBA en ESMA.\n" =
      js "  Automatisch bijgewerkte regulatory news feed van AFM, DNB, EBA en ESMA." ++
        [lineFeed] := by decide
  have e4 : js "\n" = [lineFeed] := by decide
  have e5 : js "# 📰 Regulatory News Feed\n" = js "# 📰 Regulatory News Feed" ++ [lineFeed] := by
    decide
  have e6 : js "> \n" = js "> " ++ [lineFeed] := by decide
  have e7 : js "> Deze pagina wordt automatisch bijgewerkt via RSS feeds van de financiële toezichthouders.\n" =
      js "> Deze pagina wordt automatisch bijgewerkt via RSS feeds van de financiële toezichthouders." ++
        [lineFeed] := by decide
  have e8 : js "## Directe links\n" = js "## Directe links" ++ [lineFeed] := by decide
  have e9 : js "| Toezichthouder | Nieuwspagina |\n" =
      js "| Toezichthouder | Nieuwspagina |" ++ [lineFeed] := by decide
  have e10 : js "|---|---|\n" = js "|---|---|" ++ [lineFeed] := by decide
  have e11 : js "| 🟢 **AFM** | [afm.nl/sector/actueel](https://www.afm.nl/nl-nl/sector/actueel) |\n" =
      js "| 🟢 **AFM** | [afm.nl/sector/actueel](https://www.afm.nl/nl-nl/sector/actueel) |" ++
        [lineFeed] := by decide
  have e12 : js "| 🔵 **DNB** | [dnb.nl/algemeen-nieuws](https://www.dnb.nl/algemeen-nieuws/) |\n" =
      js "| 🔵 **DNB** | [dnb.nl/algemeen-nieuws](https://www.dnb.nl/algemeen-nieuws/) |" ++
        [lineFeed] := by decide
  have e13 : js "| 🟤 **EBA** | [eba.europa.eu/news-press](https://www.eba.europa.eu/news-press/news) |\n" =
      js "| 🟤 **EBA** | [eba.europa.eu/news-press](https://www.eba.europa.eu/news-press/news) |" ++
        [lineFeed] := by decide
  have e14 : js "| 🟣 **ESMA** | [esma.europa.eu/esma-news](https://www.esma.europa.eu/press-news/esma-news) |\n" =
      js "| 🟣 **ESMA** | [esma.europa.eu/esma-news](https://www.esma.europa.eu/press-news/esma-news) |" ++
        [lineFeed] := by decide
  have e15 : js "## Laatste nieuws\n" = js "## Laatste nieuws" ++ [lineFeed] := by decide
  simp only [pageHead, e1, e2, e3, e4, e5, e6, e7, e8, e9, e10, e11, e12, e13, e14, e15]
  simp only [headLines, unlines, List.flatMap_cons, List.flatMap_nil, List.append_assoc,
    List.nil_append, List.append_nil, List.cons_append, List.singleton_append]

theorem render_eq_unlines (objToString : JSValue → JSString) (localeDate : Int → JSString)
    (updated : JSString) (items : List NewsItem) :
    render objToString localeDate updated items =
      unlines (headLines updated ++ items.flatMap (itemLines objToString localeDate) ++
        footLines) := by
  rw [render, foldl_appendItem, pageHead_eq, pageFoot_eq, unlines_append, unlines_append]

theorem lineFeed_not_mem_append {a b : JSString} (ha : lineFeed ∉ a) (hb : lineFeed ∉ b) :
    lineFeed ∉ a ++ b := by
  rw [List.mem_append]
  rintro (h | h)
  · exact ha h
  · exact hb h

theorem headLines_lineFree (updated : JSString) (hupdated : lineFeed ∉ updated) :
    ∀ l ∈ headLines updated, lineFeed ∉ l := by
  simp only [headLines, List.forall_mem_cons]
  split_ands <;>
    first
    | decide
    | exact lineFeed_not_mem_append (by decide) hupdated

theorem footLines_lineFree : ∀ l ∈ footLines, lineFeed ∉ l := by decide

theorem formatDate_lineFree (localeDate : Int → JSString)
    (hlocale : ∀ t, lineFeed ∉ localeDate t) (date : JSDate) :
    lineFeed ∉ formatDate (fun d => d) localeDate date := by
  cases date with
  | none => exact (by decide : lineFeed ∉ js "Unknown date")
  | some t => exact hlocale t

theorem itemLines_lineFree (objToString : JSValue → JSString) (localeDate : Int → JSString)
    (hlocale : ∀ t, lineFeed ∉ localeDate t) (item : NewsItem)
    (hitem : LineFree objToString item) :
    ∀ l ∈ itemLines objToString localeDate item, lineFeed ∉ l := by
  obtain ⟨hlabel, htitle, htype, hdesc, hlink⟩ := hitem
  have h1 : lineFeed ∉ headingLine objToString item :=
    lineFeed_not_mem_append (lineFeed_not_mem_append
      (lineFeed_not_mem_append (by decide) hlabel) (by decide)) htitle
  have h2 : lineFeed ∉ dateLine localeDate item :=
    lineFeed_not_mem_append (lineFeed_not_mem_append
      (lineFeed_not_mem_append (by decide) (formatDate_lineFree localeDate hlocale _))
      (by decide)) htype
  have h3 : lineFeed ∉ js "🔗 [Lees meer →](" ++ toJSString objToString item.link ++ js ")" :=
    lineFeed_not_mem_append (lineFeed_not_mem_append (by decide) hlink) (by decide)
  have h4 : lineFeed ∉ js "---" := by decide
  have h5 : lineFeed ∉ ([] : JSString) := by simp
  intro l hl
  simp only [itemLines, middleLines, List.mem_append, List.mem_cons, List.mem_singleton,
    List.not_mem_nil, or_false] at hl
  rcases hl with ((rfl | rfl | rfl | rfl) | hm) | rfl | rfl
  · exact h1
  · exact h5
  · exact h2
  · exact h5
  · rcases hm with hm | hm
    · split_ifs at hm
      · simp only [List.mem_cons, List.mem_singleton, List.not_mem_nil, or_false] at hm
        rcases hm with rfl | rfl
        · exact hdesc
        · exact h5
      · simp at hm
    · split_ifs at hm
      · simp only [List.mem_cons, List.mem_singleton, List.not_mem_nil, or_false] at hm
        rcases hm with rfl | rfl
        · exact h3
        · exact h5
      · simp at hm
  · exact h4
  · exact h5

theorem splitLines_render (objToString : JSValue → JSString) (localeDate : Int → JSString)
    (updated : JSString) (items : List NewsItem)
    (hupdated : lineFeed ∉ updated) (hlocale : ∀ t, lineFeed ∉ localeDate t)
    (hitems : ∀ item ∈ items, LineFree objToString item) :
    splitLines (render objToString localeDate updated items) =
      headLines updated ++ items.flatMap (itemLines objToString localeDate) ++
        footLines ++ [[]] := by
  have h := splitLines_unlines
    (headLines updated ++ items.flatMap (itemLines objToString localeDate) ++ footLines) [] ?_
  · rw [List.append_nil] at h
    rw [render_eq_unlines, h]
    rfl
  · intro l hl
    rw [List.mem_append, List.mem_append, List.mem_flatMap] at hl
    rcases hl with (hl | ⟨item, hi, hl⟩) | hl
    · exact headLines_lineFree updated hupdated l hl
    · exact itemLines_lineFree objToString localeDate hlocale item (hitems item hi) l hl
    · exact footLines_lineFree l hl

theorem isHeadingLine_headingLine (objToString : JSValue → JSString) (item : NewsItem) :
    isHeadingLine (headingLine objToString item) = true := by
  unfold isHeadingLine headingLine
  rw [List.isPrefixOf_iff_prefix]
  exact ⟨item.label ++ js " " ++ toJSString objToString item.title, by
    simp only [List.append_assoc]⟩

theorem isHeadingLine_dateLine (localeDate : Int → JSString) (item : NewsItem) :
    isHeadingLine (dateLine localeDate item) = false := rfl

theorem isHeadingLine_linkLine (rest : JSString) :
    isHeadingLine (js "🔗 [Lees meer →](" ++ rest) = false := rfl

theorem filter_headLines (updated : JSString) :
    (headLines updated).filter isHeadingLine = [] := by
  rw [List.filter_eq_nil_iff]
  simp only [headLines, List.forall_mem_cons]
  split_ands <;>
    first
    | decide
    | exact (fun h => Bool.noConfusion (h.symm.trans rfl))

theorem filter_itemLines (objToString : JSValue → JSString) (localeDate : Int → JSString)
    (item : NewsItem) :
    ((itemLines objToString localeDate item).filter isHeadingLine).length =
      1 + (if isHeadingLine item.description = true then 1 else 0) := by
  have h0 : isHeadingLine [] = false := rfl
  have h1 : isHeadingLine (js "---") = false := by decide
  by_cases hd : item.description = []
  · by_cases hl : truthy item.link = true
    · simp [itemLines, middleLines, hd, hl, List.filter_cons, isHeadingLine_headingLine,
        isHeadingLine_dateLine, isHeadingLine_linkLine, h0, h1]
    · simp [itemLines, middleLines, hd, hl, List.filter_cons, isHeadingLine_headingLine,
        isHeadingLine_dateLine, h0, h1]
  · by_cases hh : isHeadingLine item.description = true
    · by_cases hl : truthy item.link = true
      · simp [itemLines, middleLines, hd, hl, hh, List.filter_cons, isHeadingLine_headingLine,
          isHeadingLine_dateLine, isHeadingLine_linkLine, h0, h1]
      · simp [itemLines, middleLines, hd, hl, hh, List.filter_cons, isHeadingLine_headingLine,
          isHeadingLine_dateLine, h0, h1]
    · by_cases hl : truthy item.link = true
      · simp [itemLines, middleLines, hd, hl, hh, List.filter_cons, isHeadingLine_headingLine,
          isHeadingLine_dateLine, isHeadingLine_linkLine, h0, h1]
      · simp [itemLines, middleLines, hd, hl, hh, List.filter_cons, isHeadingLine_headingLine,
          isHeadingLine_dateLine, h0, h1]

theorem filter_flatMap_itemLines (objToString : JSValue → JSString)
    (localeDate : Int → JSString) (items : List NewsItem) :
    ((items.flatMap (itemLines objToString localeDate)).filter isHeadingLine).length =
      items.length + (items.filter (fun item => isHeadingLine item.description)).length := by
  induction items with
  | nil => rfl
  | cons item items ih =>
    rw [List.flatMap_cons, List.filter_append, List.length_append, ih, filter_itemLines,
      List.length_cons, List.filter_cons]
    split_ifs <;> simp <;> omega

theorem frontMatterCount_empty_line (rest : List JSString) :
    frontMatterCount ([] :: rest) = frontMatterCount rest := by
  cases rest with
  | nil => rfl
  | cons b rest =>
    have h : ¬ (([] : JSString) = js "---" ∧ b = js "description: >-") :=
      fun h => absurd h.1 (by decide)
    rw [frontMatterCount, if_neg h, Nat.zero_add]

theorem frontMatterCount_step (a b : JSString) (rest : List JSString)
    (h : b ≠ js "description: >-") :
    frontMatterCount (a :: b :: rest) = frontMatterCount (b :: rest) := by
  have h2 : ¬ (a = js "---" ∧ b = js "description: >-") := fun e => h e.2
  rw [frontMatterCount, if_neg h2, Nat.zero_add]

theorem frontMatterCount_open (rest : List JSString) :
    frontMatterCount (js "---" :: js "description: >-" :: rest) =
      1 + frontMatterCount (js "description: >-" :: rest) := by
  rw [frontMatterCount, if_pos ⟨rfl, rfl⟩]

theorem frontMatterCount_pair (l : JSString) (rest : List JSString) :
    frontMatterCount (l :: [] :: rest) = frontMatterCount rest := by
  rw [frontMatterCount_step l [] rest (by decide), frontMatterCount_empty_line]

theorem frontMatterCount_itemLines (objToString : JSValue → JSString)
    (localeDate : Int → JSString) (item : NewsItem) (rest : List JSString) :
    frontMatterCount (itemLines objToString localeDate item ++ rest) =
      frontMatterCount rest := by
  simp only [itemLines, middleLines]
  split_ifs <;>
    simp only [List.cons_append, List.nil_append, List.append_nil, frontMatterCount_pair]

theorem frontMatterCount_flatMap (objToString : JSValue → JSString)
    (localeDate : Int → JSString) (items : List NewsItem) (rest : List JSString) :
    frontMatterCount (items.flatMap (itemLines objToString localeDate) ++ rest) =
      frontMatterCount rest := by
  induction items with
  | nil => rfl
  | cons item items ih =>
    rw [List.flatMap_cons, List.append_assoc, frontMatterCount_itemLines, ih]

theorem ne_of_head?_ne {a b : JSString} (h : a.head? ≠ b.head?) : a ≠ b :=
  fun e => h (e ▸ rfl)

theorem frontMatterCount_headLines (updated : JSString) (rest : List JSString) :
    frontMatterCount (headLines updated ++ rest) = 1 + frontMatterCount rest := by
  have h3 : js "  Laatste update: " ++ updated ≠ js "description: >-" :=
    ne_of_head?_ne (fun e => Option.noConfusion (e.symm.trans rfl) (fun e2 => absurd e2
      (by decide)))
  have h8 : js "> **Laatste update:** " ++ updated ≠ js "description: >-" :=
    ne_of_head?_ne (fun e => Option.noConfusion (e.symm.trans rfl) (fun e2 => absurd e2
      (by decide)))
  simp only [headLines, List.cons_append, List.nil_append]
  rw [frontMatterCount_open]
  rw [frontMatterCount_step _ _ _ (by decide), frontMatterCount_step _ _ _ h3,
    frontMatterCount_step _ _ _ (by decide), frontMatterCount_pair,
    frontMatterCount_pair, frontMatterCount_step _ _ _ (by decide),
    frontMatterCount_step _ _ _ (by decide), frontMatterCount_pair,
    frontMatterCount_pair, frontMatterCount_step _ _ _ (by decide),
    frontMatterCount_step _ _ _ (by decide), frontMatterCount_step _ _ _ (by decide),
    frontMatterCount_step _ _ _ (by decide), frontMatterCount_step _ _ _ (by decide),
    frontMatterCount_pair, frontMatterCount_pair, frontMatterCount_pair]

theorem headingCount_render (objToString : JSValue → JSString) (localeDate : Int → JSString)
    (updated : JSString) (items : List NewsItem)
    (hupdated : lineFeed ∉ updated) (hlocale : ∀ t, lineFeed ∉ localeDate t)
    (hitems : ∀ item ∈ items, LineFree objToString item) :
    headingCount (render objToString localeDate updated items) =
      items.length + (items.filter (fun item => isHeadingLine item.description)).length := by
  have hfoot : (footLines ++ [[]]).filter isHeadingLine = [] := by decide
  rw [headingCount, splitLines_render objToString localeDate updated items hupdated hlocale
    hitems, List.append_assoc, List.filter_append, List.filter_append, filter_headLines,
    hfoot, List.nil_append, List.append_nil, filter_flatMap_itemLines]

theorem frontMatterCount_render (objToString : JSValue → JSString)
    (localeDate : Int → JSString) (updated : JSString) (items : List NewsItem)
    (hupdated : lineFeed ∉ updated) (hlocale : ∀ t, lineFeed ∉ localeDate t)
    (hitems : ∀ item ∈ items, LineFree objToString item) :
    frontMatterCount (splitLines (render objToString localeDate updated items)) = 1 := by
  have hfoot : frontMatterCount (footLines ++ [[]]) = 0 := by decide
  rw [splitLines_render objToString localeDate updated items hupdated hlocale hitems,
    List.append_assoc, List.append_assoc, frontMatterCount_headLines,
    frontMatterCount_flatMap, hfoot]

theorem sampleLocaleDate_lineFree (t : Int) : lineFeed ∉ sampleLocaleDate t := by
  unfold sampleLocaleDate
  split_ifs <;> decide

theorem lineFree_pageItem_update :
    ∀ item ∈ descriptionHeadingPage, LineFree (fun _ => js "[object Object]") item := by
  unfold LineFree
  decide

/-- C15 (counterexample): a page of two items with three lines that start with `### `.
The description of the first item is `### Update`, which `stripHtml` leaves as it is, and
the renderer appends a description to the page unchanged, as a line of its own. -/
theorem render_description_heading :
    descriptionHeadingPage.length = 2 ∧
    (∀ item ∈ descriptionHeadingPage, LineFree (fun _ => js "[object Object]") item) ∧
    stripHtml (js "### Update") = js "### Update" ∧
    descriptionHeadingPage.map (fun item => item.description) = [js "### Update", js ""] ∧
    headingCount (render (fun _ => js "[object Object]") sampleLocaleDate sampleUpdated
      descriptionHeadingPage) = 3 := by
  refine ⟨rfl, lineFree_pageItem_update, by decide, by decide, ?_⟩
  rw [headingCount_render _ _ _ _ (by decide) sampleLocaleDate_lineFree
    lineFree_pageItem_update]
  decide

/-- C15 (amended): for items and a time text without a line feed, the lines of the page
are the lines of the head, the blocks of the items in order, and the footer.  The head
starts with the front-matter block, and no other front-matter block opens in the page.
The block of an item is its heading line (which starts with `### `), an empty line, its
date and type line, an empty line, its description and link lines, and the line `---`.
The lines that start with `### ` are the headings and the descriptions that start with
`### `: there are exactly as many as items when no description starts with `### `. -/
theorem render_heading_blocks (objToString : JSValue → JSString)
    (localeDate : Int → JSString) (updated : JSString) (items : List NewsItem)
    (hupdated : lineFeed ∉ updated) (hlocale : ∀ t, lineFeed ∉ localeDate t)
    (hitems : ∀ item ∈ items, LineFree objToString item) :
    splitLines (render objToString localeDate updated items) =
      headLines updated ++ items.flatMap (itemLines objToString localeDate) ++
        footLines ++ [[]] ∧
    (splitLines (render objToString localeDate updated items)).take 5 = frontMatter updated ∧
    frontMatterCount (splitLines (render objToString localeDate updated items)) = 1 ∧
    (∀ item, itemLines objToString localeDate item =
      [headingLine objToString item, [], dateLine localeDate item, []] ++
        middleLines objToString item ++ [js "---", []] ∧
      isHeadingLine (headingLine objToString item) = true ∧
      isHeadingLine (dateLine localeDate item) = false) ∧
    headingCount (render objToString localeDate updated items) =
      items.length + (items.filter (fun item => isHeadingLine item.description)).length ∧
    ((∀ item ∈ items, isHeadingLine item.description = false) →
      headingCount (render objToString localeDate updated items) = items.length) := by
  refine ⟨splitLines_render objToString localeDate updated items hupdated hlocale hitems,
    by rw [splitLines_render objToString localeDate updated items hupdated hlocale hitems]; rfl,
    frontMatterCount_render objToString localeDate updated items hupdated hlocale hitems,
    fun item => ⟨rfl, isHeadingLine_headingLine objToString item,
      isHeadingLine_dateLine localeDate item⟩,
    headingCount_render objToString localeDate updated items hupdated hlocale hitems, ?_⟩
  intro hdesc
  rw [headingCount_render objToString localeDate updated items hupdated hlocale hitems,
    List.filter_eq_nil_iff.mpr (fun item hi => by simp [hdesc item hi])]
  rfl

/-- Witness of C15 (amended): a page of two items has two lines that start with `### `,
and one front-matter block, at its top. -/
theorem render_heading_blocks_witness :
    samplePage.length = 2 ∧
    headingCount (render (fun _ => js "[object Object]") sampleLocaleDate sampleUpdated
      samplePage) = 2 ∧
    frontMatterCount (splitLines (render (fun _ => js "[object Object]") sampleLocaleDate
      sampleUpdated samplePage)) = 1 ∧
    (splitLines (render (fun _ => js "[object Object]") sampleLocaleDate sampleUpdated
      samplePage)).take 5 = frontMatter sampleUpdated :=
  have h := render_heading_blocks (fun _ => js "[object Object]") sampleLocaleDate
    sampleUpdated samplePage (by decide)
    (fun t => by unfold sampleLocaleDate; split_ifs <;> decide)
    (by unfold LineFree; decide)
  ⟨rfl, h.2.2.2.2.2 (by decide), h.2.2.1, h.2.1⟩

end FetchFeeds
